import Mathlib

/-!
# simple_shell.c : tokenizer, router, history store and replay

A shallow embedding of `src/simple_shell.c`.

Modelling conventions.
* A C string is a `List Char` (no embedded NUL).
* Blocks obtained from `malloc` have the size the source asks for, plus the bytes the
  allocator leaves usable after them (`Env.slack`).  A `strcpy` that needs more gives the
  outcome `overrun`: from there on the behaviour of the process is undefined.
* A string the source leaves without its terminating NUL is read together with the bytes
  that follow it in memory up to the first NUL (`Env.stale`, `Env.argv_tail`).
* The history file `.421sh` is `Option (List Char)`: `none` when the file is absent,
  otherwise its contents, byte for byte.  Opening, reading, appending and removing succeed
  whenever the file system state allows it.
* `int` counters of lines are unbounded; `atoi` follows glibc (`(int) strtol (s, NULL, 10)`),
  so a numeral outside the range of `int` is read modulo 2^32.
* `utils.h` (`unescape`, `first_unquoted_space`) is not part of the sources: both functions
  are fields of `Env`, together with the behaviour of `fork` and of the child program.
* Console output is not modelled.  The calls that matter are recorded in `World.trace`.
* `execute_history` is recursive without a bound; the model takes a fuel argument that is
  consumed by each nested invocation and answers `none` when the fuel runs out.
-/

namespace SimpleShell

/-- A C string. -/
abbrev CStr := List Char

/-- Constant `#define EXIT "exit"` -/
def EXIT : CStr := ['e', 'x', 'i', 't']

/-- Constant `#define PROC "/proc"` -/
def PROC : CStr := ['/', 'p', 'r', 'o', 'c']

/-- Constant `#define HISTORY "history"` -/
def HISTORY : CStr := ['h', 'i', 's', 't', 'o', 'r', 'y']

/-! ## libc helpers -/

/-- Model of `isspace` of the C locale. -/
def isspace (c : Char) : Bool :=
  c = ' ' || c = '\t' || c = '\n' || c = '\x0b' || c = '\x0c' || c = '\r'

/-- Model of `strcspn (s, " ")`: length of the initial segment of `s` without a space. -/
def strcspn_space : CStr → Nat
  | [] => 0
  | c :: cs => if c = ' ' then 0 else strcspn_space cs + 1

/-- Wrap an integer to the range of a 32-bit `int` (the cast `(int)` of a `long`). -/
def wrap32 (x : Int) : Int := (x + 2147483648) % 4294967296 - 2147483648

/-- Value of a run of decimal digits, most significant first. -/
def digits_value (s : CStr) : Nat :=
  s.foldl (fun a c => 10 * a + (c.toNat - 48)) 0

/-- The integer a string denotes for `strtol`, before any bound applies: leading white space
is skipped, one optional sign is read, then the longest run of decimal digits. -/
def numeral_value (s : CStr) : Int :=
  let s1 := s.dropWhile isspace
  let s2 := if s1.head? = some '-' ∨ s1.head? = some '+' then s1.tail else s1
  let v : Int := (digits_value (s2.takeWhile Char.isDigit) : Nat)
  if s1.head? = some '-' then -v else v

/-- Saturation of `strtol` at the bounds of a 64-bit `long`. -/
def clamp_long (x : Int) : Int := max (-9223372036854775808) (min x 9223372036854775807)

/-- Model of `atoi`, as glibc implements it: `(int) strtol (s, NULL, 10)`.  The value read
is saturated at the bounds of `long` and the cast keeps the low 32 bits. -/
def atoi (s : CStr) : Int := wrap32 (clamp_long (numeral_value s))

/-- What `fprintf (f, "%u", n)` writes. -/
def utoa (n : Nat) : CStr := Nat.toDigits 10 n

/-- The lines of a stream as successive calls of `getline` return them: each line keeps its
terminating newline; a last line without newline is returned as it is.  `cur` is the part of
the current line read so far. -/
def getlines_from (cur : CStr) : CStr → List CStr
  | [] => if cur = [] then [] else [cur]
  | c :: cs => if c = '\n' then (cur ++ ['\n']) :: getlines_from [] cs
               else getlines_from (cur ++ [c]) cs

/-- The successive results of `getline` on a file with the given contents. -/
def getlines (content : CStr) : List CStr := getlines_from [] content

/-- Model of `strtok (line, " ")` called until it returns `NULL`: the maximal runs of
characters other than the space, in order.  `cur` is the token being read. -/
def strtok_from (cur : CStr) : CStr → List CStr
  | [] => if cur = [] then [] else [cur]
  | c :: cs => if c = ' ' then (if cur = [] then strtok_from [] cs else cur :: strtok_from [] cs)
               else strtok_from (cur ++ [c]) cs

/-- All tokens `strtok` finds in `line` with the delimiter set `" "`. -/
def strtok_all (line : CStr) : List CStr := strtok_from [] line

/-! ## Environment and state -/

/-- One observable call. -/
inductive Event where
  | exit_handler (args : List CStr)
  | proc_handler (args : List CStr)
  | history_handler (args : List CStr)
  | external (args : List CStr)
  | fork_failed
  | child (argv : List CStr)
  | waited
  | replay (raw : CStr)
  | history_written (args : List CStr)
  | history_deleted
  | delete_failed
  deriving DecidableEq, Repr

/-- State of the process and of the file it shares with the file system. -/
structure World where
  /-- Contents of `.421sh`, `none` when the file does not exist. -/
  log : Option CStr
  /-- Number of calls of `fork` made so far. -/
  forks : Nat
  /-- The calls made so far, oldest first. -/
  trace : List Event
  deriving DecidableEq, Repr

/-- The collaborators of the shell that are not in `simple_shell.c`. -/
structure Env where
  /-- Function `unescape (inputLine, stderr)` of `utils.h`. -/
  unescape : CStr → CStr
  /-- Function `first_unquoted_space (line)` of `utils.h`. -/
  first_unquoted_space : CStr → Int
  /-- Whether the `i`-th call of `fork` (counted from 0) creates a child. -/
  fork_ok : Nat → Bool
  /-- What the child running `execvp (argv[0], argv)` does to the history file. -/
  child : List CStr → Option CStr → Option CStr
  /-- The number of bytes the allocator leaves usable after a block of `n` requested bytes
  (0 as far as the C standard goes). -/
  slack : Nat → Nat
  /-- The bytes found in memory right after the text copied at line 284, up to the first
  NUL, when `execute_history` is entered in the given state. -/
  stale : World → CStr
  /-- The strings found through the pointers that follow `command[1]` at line 221, up to
  the first null pointer, in the given state. -/
  argv_tail : World → List CStr

/-- How a function call ends. -/
inductive Outcome where
  /-- The function returned `code` to its caller. -/
  | ret (code : Int) (w : World)
  /-- The call `exit (status)` was made: the process is over. -/
  | exited (status : Int) (w : World)
  /-- The process was killed by a fault (a null pointer was dereferenced). -/
  | crashed (w : World)
  /-- A `strcpy` wrote past the usable end of its block: what follows is undefined. -/
  | overrun (w : World)
  /-- The standard input ended before the loop did: `getline` fails at line 104, its result
  is not looked at, and what the loop does from there is not modelled. -/
  | starved (w : World)
  deriving DecidableEq, Repr

/-- The state an outcome leaves. -/
def Outcome.world : Outcome → World
  | .ret _ w => w
  | .exited _ w => w
  | .crashed w => w
  | .overrun w => w
  | .starved w => w

/-- Record one call. -/
def World.push (w : World) (e : Event) : World := { w with trace := w.trace ++ [e] }

/-! ## The tokenizer -/

/-- Whether a `strcpy` of `s` stays inside a block of `request` requested bytes: the string
and its NUL need `s.length + 1` bytes. -/
def fits (env : Env) (request : Nat) (s : CStr) : Bool :=
  decide (s.length + 1 ≤ request + env.slack request)

/-- Embedding of `parse_command` (lines 116-155).  Each token is copied into a block of
`sizeof (spacePntr) + 1` = 9 bytes (lines 131-132); without an unquoted space after index 0
the line is copied into a block of `sizeof (line)` = 8 bytes (lines 146-147).  The result is
`none` when one of these copies does not fit. -/
def parse_command (env : Env) (inputLine : CStr) : Option (List CStr) :=
  let line := env.unescape inputLine
  let space := env.first_unquoted_space line
  if space > 0 then
    if (strtok_all line).all (fits env 9) then some (strtok_all line) else none
  else
    if fits env 8 line then some [line] else none

/-! ## The history store -/

/-- The loop of lines 377-387 of `write_history`: the text written for `args[index..]`. -/
def write_tokens (lineNum : Nat) : Nat → List CStr → CStr
  | _, [] => []
  | index, a :: rest =>
      (if index = 0 then utoa lineNum ++ [' '] else [' ']) ++ a ++
        write_tokens lineNum (index + 1) rest

/-- The line number `write_history` computes (lines 357-374). -/
def next_line_number (log : Option CStr) : Nat :=
  match log with
  | none => 1
  | some content => 1 + (getlines content).length

/-- The text `write_history` appends (lines 376-389). -/
def history_line (log : Option CStr) (args : List CStr) : CStr :=
  write_tokens (next_line_number log) 0 args ++ ['\n']

/-- Embedding of `write_history` (lines 355-392); it always returns 0. -/
def write_history (w : World) (args : List CStr) : World :=
  { w with log := some (w.log.getD [] ++ history_line w.log args),
           trace := w.trace ++ [Event.history_written args] }

/-- Embedding of `delete_history` (lines 394-403). -/
def delete_history (w : World) : World :=
  match w.log with
  | some _ => { w with log := none, trace := w.trace ++ [Event.history_deleted] }
  | none => { w with trace := w.trace ++ [Event.delete_failed] }

/-- Result of the search loop of `execute_history` (lines 269-296). -/
inductive Lookup where
  /-- The line exists; `histArgs` is the command it stores. -/
  | found (histArgs : CStr)
  /-- The loop ended with `exists == 0`. -/
  | missing
  /-- A fault: `realloc` was asked for `size - firstSpace` bytes with `size <= firstSpace`
  and the null pointer it returned was used. -/
  | fault
  deriving DecidableEq, Repr

/-- Lines 281-291 of `execute_history`.  The block is resized to `size - firstSpace` bytes
and exactly that many bytes of `buffer`, those after its first space, are copied by
`strncpy`, which writes no NUL; `strcat (histArgs, "\0")` appends nothing.  The string
`histArgs` is therefore the copied text followed by `stale`, the bytes that follow the block
up to the first NUL.  One trailing newline of that string is removed. -/
def copy_command (stale : CStr) (buffer : CStr) : Lookup :=
  let firstSpace := strcspn_space buffer + 1
  let size := buffer.length
  if size ≤ firstSpace then .fault
  else
    let histArgs := buffer.drop firstSpace ++ stale
    .found (if histArgs.getLast? = some '\n' then histArgs.dropLast else histArgs)

/-- The `while` loop of lines 278-294 over the lines `getline` still has to return, `index`
being the number of the next one. -/
def history_scan (stale : CStr) (lineNum : Int) : Int → List CStr → Lookup
  | _, [] => .missing
  | index, buffer :: rest =>
      if index ≤ lineNum then
        if index = lineNum then copy_command stale buffer
        else history_scan stale lineNum (index + 1) rest
      else .missing

/-- The lines of the history file, none when the file is absent. -/
def log_lines (log : Option CStr) : List CStr := getlines (log.getD [])

/-- The line a history entry is stored as: the decimal numeral of `n`, one space, the tokens
joined by single spaces, a newline. -/
def history_entry (n : Nat) (cmd : List CStr) : CStr :=
  utoa n ++ [' '] ++ [' '].intercalate cmd ++ ['\n']

/-! ## The handlers -/

/-- Embedding of `execute_command` (lines 162-200): `fork`, then in the parent `waitpid`
and `return 0`, or `return -1` when `fork` failed. -/
def execute_command (env : Env) (w : World) (args : List CStr) : Outcome :=
  if env.fork_ok w.forks then
    .ret 0 { log := env.child args w.log, forks := w.forks + 1,
             trace := w.trace ++ [Event.external args, Event.child args, Event.waited] }
  else
    .ret (-1) { log := w.log, forks := w.forks + 1,
                trace := w.trace ++ [Event.external args, Event.fork_failed] }

/-- Embedding of `execute_proc` (lines 203-233).  The path is built in a block of
`sizeof (args[0]) + sizeof (args[1])` = 16 bytes (lines 211-214).  The argument vector has
two slots and no terminating null pointer (lines 217-220), so it goes on with
`env.argv_tail`.  The value of `execute_command` is not used. -/
def execute_proc (env : Env) (w : World) (args : List CStr) : Outcome :=
  let w1 := w.push (Event.proc_handler args)
  match args with
  | [] => .crashed w1
  | [_] => .ret (-1) w1
  | [a0, a1] =>
      let fullProc := a0 ++ ['/'] ++ a1
      if fits env 16 fullProc then
        let command := [['c', 'a', 't'], fullProc] ++ env.argv_tail w1
        .ret 0 (execute_command env w1 command).world
      else .overrun w1
  | _ => .ret (-1) w1

/-- Embedding of `execute_exit` (lines 236-243). -/
def execute_exit (w : World) (args : List CStr) : Outcome :=
  let w1 := w.push (Event.exit_handler args)
  match args with
  | [] => .crashed w1
  | [_] => .ret 0 w1
  | _ => .ret (-1) w1

/-- The chain of comparisons of lines 307-330 in `execute_history`, applied to the command
recovered from the log.  `again` is the recursive call of `execute_history`. -/
def replay_dispatch (env : Env) (again : World → List CStr → Option Outcome)
    (w : World) (command : List CStr) : Option Outcome :=
  match command with
  | [] => some (.crashed w)
  | c0 :: _ =>
      if c0 = EXIT then
        match execute_exit w command with
        | .ret returnCode w1 =>
            if returnCode = 0 then some (.exited returnCode (write_history w1 command))
            else some (.ret returnCode w1)
        | other => some other
      else if c0 = PROC then some (execute_proc env w command)
      else if c0 = HISTORY then again w command
      else if c0.length = 0 then some (.ret 0 w)
      else some (execute_command env w command)

/-- Embedding of `execute_history` (lines 246-352).  Each nested invocation uses one unit
of fuel. -/
def execute_history (env : Env) : Nat → World → List CStr → Option Outcome
  | 0, _, _ => none
  | fuel + 1, w, args =>
      let w1 := w.push (Event.history_handler args)
      match w1.log with
      | none => some (.ret (-1) w1)
      | some content =>
          match args with
          | [] => some (.crashed w1)
          | [_] => some (.ret 0 w1)
          | [_, a1] =>
              match history_scan (env.stale w) (atoi a1) 1 (getlines content) with
              | .fault => some (.crashed w1)
              | .missing => some (.ret (-1) w1)
              | .found histArgs =>
                  match parse_command env histArgs with
                  | none => some (.overrun (w1.push (Event.replay histArgs)))
                  | some command =>
                      replay_dispatch env (execute_history env fuel)
                        (w1.push (Event.replay histArgs)) command
          | _ => some (.ret (-1) w1)

/-! ## The prompt loop -/

/-- Embedding of `get_user_command` (lines 101-113) on the line `getline` read from the
terminal. -/
def get_user_command (env : Env) (buffer : CStr) : Option (List CStr) :=
  parse_command env (if buffer.getLast? = some '\n' then buffer.dropLast else buffer)

/-- The chain of comparisons of lines 70-85 in `user_prompt_loop`.  The result pairs the
outcome (for `ret`, the new value of `returnCode`) with the new value of `run`. -/
def prompt_dispatch (env : Env) (fuel : Nat) (returnCode : Int) (w : World)
    (command : List CStr) : Option (Outcome × Bool) :=
  match command with
  | [] => some (.crashed w, true)
  | c0 :: _ =>
      if c0 = EXIT then
        match execute_exit w command with
        | .ret rc w1 => some (.ret rc w1, decide (rc ≠ 0))
        | other => some (other, true)
      else if c0 = PROC then some (execute_proc env w command, true)
      else if c0 = HISTORY then (execute_history env fuel w command).map (fun o => (o, true))
      else if c0.length = 0 then some (.ret returnCode w, true)
      else some (execute_command env w command, true)

/-- One pass through the body of the `do` loop (lines 66-93) for a command already read:
dispatch, then `write_history` when the dispatch returned. -/
def prompt_iteration (env : Env) (fuel : Nat) (returnCode : Int) (w : World)
    (command : List CStr) : Option (Outcome × Bool) :=
  match prompt_dispatch env fuel returnCode w command with
  | some (.ret rc w1, run) => some (.ret rc (write_history w1 command), run)
  | other => other

/-- Embedding of `user_prompt_loop` (lines 62-98) on the lines the terminal still has to
deliver; `returnCode` starts at 0. -/
def user_prompt_loop (env : Env) (fuel : Nat) : Int → World → List CStr → Option Outcome
  | _, w, [] => some (.starved w)
  | returnCode, w, buffer :: rest =>
      match get_user_command env buffer with
      | none => some (.overrun w)
      | some command =>
          match prompt_iteration env fuel returnCode w command with
          | some (.ret rc w1, run) =>
              if run then user_prompt_loop env fuel rc w1 rest else some (.ret rc w1)
          | some (other, _) => some other
          | none => none

/-- Embedding of `main` (lines 33-51).  Returning from `main` ends the process with
`returnCode`. -/
def main (env : Env) (fuel : Nat) (argc : Int) (w : World) (stdin : List CStr) :
    Option Outcome :=
  if argc ≤ 1 then
    match user_prompt_loop env fuel 0 w stdin with
    | some (.ret returnCode w1) => some (.exited returnCode (delete_history w1))
    | other => other
  else some (.exited 1 (delete_history w))

/-! ## A concrete environment -/

/-- Modelled from the spec: `first_unquoted_space` of `utils.h`, which is not among the
sources.  Index of the first space that is outside a region delimited by double quotes, -1
when there is none.  `i` is the index of the head of the list, `q` tells whether it lies
inside quotes. -/
def first_unquoted_space_from (i : Nat) (q : Bool) : CStr → Int
  | [] => -1
  | c :: cs =>
      if c = '"' then first_unquoted_space_from (i + 1) (!q) cs
      else if c = ' ' ∧ q = false then (i : Int)
      else first_unquoted_space_from (i + 1) q cs

/-- Modelled from the spec: `unescape` of `utils.h`, which is not among the sources.  A
backslash followed by a character is resolved into that character; a backslash that ends the
line is kept. -/
def unescape_model : CStr → CStr
  | [] => []
  | ['\\'] => ['\\']
  | '\\' :: c :: cs => c :: unescape_model cs
  | c :: cs => c :: unescape_model cs

/-- An environment in which `fork` behaves as `fork_ok` says, children leave the history
file alone, a block of up to 24 requested bytes has 24 usable bytes (glibc on a 64-bit
system), and the memory read past the end of a block holds a NUL or a null pointer. -/
def model_env (fork_ok : Nat → Bool) : Env :=
  { unescape := unescape_model
    first_unquoted_space := first_unquoted_space_from 0 false
    fork_ok := fork_ok
    child := fun _ log => log
    slack := fun n => 24 - n
    stale := fun _ => []
    argv_tail := fun _ => [] }

/-- The environment `model_env` with the bytes `s` after every copy made at line 284. -/
def stale_env (s : CStr) : Env :=
  { unescape := unescape_model
    first_unquoted_space := first_unquoted_space_from 0 false
    fork_ok := fun _ => true
    child := fun _ log => log
    slack := fun n => 24 - n
    stale := fun _ => s
    argv_tail := fun _ => [] }

/-- The state of a process that starts with the given history file. -/
def World.start (log : Option CStr) : World := { log := log, forks := 0, trace := [] }

/-- Modelled from the spec: the tokenizer section 4.1 describes, which splits at unquoted
spaces only.  `cur` is the token being read, `q` tells whether the head lies inside double
quotes. -/
def split_unquoted_from (cur : CStr) (q : Bool) : CStr → List CStr
  | [] => if cur = [] then [] else [cur]
  | c :: cs =>
      if c = '"' then split_unquoted_from (cur ++ [c]) (!q) cs
      else if c = ' ' ∧ q = false then
        (if cur = [] then split_unquoted_from [] q cs else cur :: split_unquoted_from [] q cs)
      else split_unquoted_from (cur ++ [c]) q cs

/-! ## Definitions used to state the properties -/

/-- The body of a history entry: the line without its final newline. -/
def entry_body (n : Nat) (cmd : List CStr) : CStr := utoa n ++ [' '] ++ [' '].intercalate cmd

/-- The bodies of the lines stored for the commands `cmds`, numbered from `k`. -/
def entry_bodies : Nat → List (List CStr) → List CStr
  | _, [] => []
  | k, c :: cs => entry_body k c :: entry_bodies (k + 1) cs

/-- The history file after the commands `cmds` were appended to an absent log. -/
def log_after (cmds : List (List CStr)) : Option CStr :=
  (cmds.foldl write_history (World.start none)).log

/-- The first call recorded between the state `w` and the outcome `o`, if any. -/
def first_call (w : World) (o : Outcome) : Option Event := o.world.trace[w.trace.length]?

/-- The call the router is to make first for a command whose first token is `c0`. -/
def expected_call (c0 : CStr) (command : List CStr) : Option Event :=
  if c0 = EXIT then some (Event.exit_handler command)
  else if c0 = PROC then some (Event.proc_handler command)
  else if c0 = HISTORY then some (Event.history_handler command)
  else if c0 = [] then none
  else some (Event.external command)

/-- The router acted on the first token `c0` of the command `c0 :: rest` by exact string
comparison: starting in state `w` and ending with outcome `o`, the first call recorded is
that of the exit handler exactly when `c0` is `exit`, of the pseudo-file handler exactly
when `c0` is `/proc`, of the history handler exactly when `c0` is `history`, of the external
executor exactly when `c0` is none of these and not empty; an empty `c0` leaves the state
as it was; and any other `c0` gives the outcome of `execute_command` on the same tokens. -/
def RoutedByFirstToken (env : Env) (w : World) (c0 : CStr) (rest : List CStr)
    (o : Outcome) : Prop :=
  (first_call w o = some (Event.exit_handler (c0 :: rest)) ↔ c0 = EXIT) ∧
  (first_call w o = some (Event.proc_handler (c0 :: rest)) ↔ c0 = PROC) ∧
  (first_call w o = some (Event.history_handler (c0 :: rest)) ↔ c0 = HISTORY) ∧
  (first_call w o = some (Event.external (c0 :: rest)) ↔
    (c0 ≠ EXIT ∧ c0 ≠ PROC ∧ c0 ≠ HISTORY ∧ c0 ≠ [])) ∧
  (c0 = [] → o.world = w) ∧
  (c0 ≠ EXIT → c0 ≠ PROC → c0 ≠ HISTORY → c0 ≠ [] →
    o = execute_command env w (c0 :: rest))

theorem toDigitsCore_all (P : Char → Prop) (hP : ∀ d : Nat, d < 10 → P (Nat.digitChar d))
    (fuel : Nat) : ∀ (n : Nat) (ds : List Char),
    (∀ c ∈ ds, P c) → ∀ c ∈ Nat.toDigitsCore 10 fuel n ds, P c := by
  induction fuel with
  | zero => intro n ds h c hc; exact h c (by simpa [Nat.toDigitsCore] using hc)
  | succ f ih =>
    intro n ds h c hc
    have hd := hP (n % 10) (Nat.mod_lt _ (by decide))
    have hds : ∀ c ∈ Nat.digitChar (n % 10) :: ds, P c := by
      intro c hc
      rcases List.mem_cons.mp hc with rfl | hc
      · exact hd
      · exact h c hc
    simp only [Nat.toDigitsCore] at hc
    split at hc
    · exact hds c hc
    · exact ih _ _ hds c hc

/-- A numeral written by `%u` contains neither a space nor a newline. -/
theorem utoa_plain (n : Nat) : ∀ c ∈ utoa n, c ≠ ' ' ∧ c ≠ '\n' := by
  intro c hc
  refine toDigitsCore_all (fun c => c ≠ ' ' ∧ c ≠ '\n') ?_ _ _ _ (by simp) c hc
  intro d hd
  interval_cases d <;> decide

theorem toDigitsCore_value (fuel : Nat) : ∀ (n : Nat) (ds : List Char), n < fuel →
    (Nat.toDigitsCore 10 fuel n ds).foldl (fun a c => 10 * a + (c.toNat - 48)) 0 =
      ds.foldl (fun a c => 10 * a + (c.toNat - 48)) n := by
  induction fuel with
  | zero => intro n ds h; exact absurd h (Nat.not_lt_zero _)
  | succ f ih =>
    intro n ds h
    have hd : (Nat.digitChar (n % 10)).toNat - 48 = n % 10 := by
      have : n % 10 < 10 := Nat.mod_lt _ (by decide)
      generalize n % 10 = d at this
      interval_cases d <;> decide
    simp only [Nat.toDigitsCore]
    split
    · rename_i h0
      have hn : n % 10 = n := Nat.mod_eq_of_lt (by omega)
      rw [List.foldl_cons, Nat.mul_zero, Nat.zero_add, hd, hn]
    · rename_i h0
      have hlt : n / 10 < f := by omega
      rw [ih (n / 10) _ hlt]
      have hdm : 10 * (n / 10) + n % 10 = n := Nat.div_add_mod n 10
      rw [List.foldl_cons, hd, hdm]

theorem utoa_ne_nil (n : Nat) : utoa n ≠ [] := by
  unfold utoa Nat.toDigits
  simp only [Nat.toDigitsCore]
  split
  · simp
  · intro h
    have hmem : Nat.digitChar (n % 10) ∈ Nat.toDigitsCore 10 n (n / 10)
        [Nat.digitChar (n % 10)] := by
      have key : ∀ (fuel m : Nat) (ds : List Char) (c : Char), c ∈ ds →
          c ∈ Nat.toDigitsCore 10 fuel m ds := by
        intro fuel
        induction fuel with
        | zero => intro m ds c hc; simpa [Nat.toDigitsCore] using hc
        | succ f ih =>
          intro m ds c hc
          simp only [Nat.toDigitsCore]
          split
          · exact List.mem_cons_of_mem _ hc
          · exact ih _ _ _ (List.mem_cons_of_mem _ hc)
      exact key _ _ _ _ (by simp)
    rw [h] at hmem
    simp at hmem

/-- Reading back: `atoi` of the numeral `%u` writes for `n` is `n`, for every `n` an `int`
can hold. -/
theorem atoi_utoa (n : Nat) (h : n < 2147483648) : atoi (utoa n) = (n : Int) := by
  have hall : ∀ c ∈ utoa n, c.isDigit = true ∧ isspace c = false ∧ c ≠ '-' ∧ c ≠ '+' := by
    intro c hc
    refine toDigitsCore_all
      (fun c => c.isDigit = true ∧ isspace c = false ∧ c ≠ '-' ∧ c ≠ '+') ?_ _ _ _
      (by simp) c hc
    intro d hd
    interval_cases d <;> decide
  have hval : digits_value (utoa n) = n := by
    have := toDigitsCore_value (n + 1) n [] (Nat.lt_succ_self n)
    simpa [digits_value, utoa, Nat.toDigits] using this
  obtain ⟨c, cs, hcs⟩ := List.exists_cons_of_ne_nil (utoa_ne_nil n)
  have hc := hall c (by rw [hcs]; simp)
  have hdrop : (utoa n).dropWhile isspace = utoa n := by
    rw [hcs]; simp [List.dropWhile, hc.2.1]
  have htake : (utoa n).takeWhile Char.isDigit = utoa n := by
    rw [List.takeWhile_eq_self_iff]
    exact fun c hc => (hall c hc).1
  have hm : (utoa n).head? ≠ some '-' := by rw [hcs]; simpa using hc.2.2.1
  have hp : (utoa n).head? ≠ some '+' := by rw [hcs]; simpa using hc.2.2.2
  have hnum : numeral_value (utoa n) = (n : Int) := by
    simp only [numeral_value, hdrop, hm, hp, or_self, if_false, htake, hval]
  rw [atoi, hnum, clamp_long, wrap32]
  omega

theorem strcspn_space_append (a rest : CStr) (ha : ∀ c ∈ a, c ≠ ' ') :
    strcspn_space (a ++ ' ' :: rest) = a.length := by
  induction a with
  | nil => simp [strcspn_space]
  | cons c cs ih =>
    have hc : c ≠ ' ' := ha c (by simp)
    have := ih (fun x hx => ha x (by simp [hx]))
    simp [strcspn_space, hc, this]

theorem getlines_from_line (l : CStr) (hl : '\n' ∉ l) : ∀ (cur rest : CStr),
    getlines_from cur (l ++ '\n' :: rest) = (cur ++ l ++ ['\n']) :: getlines_from [] rest := by
  induction l with
  | nil => intro cur rest; simp [getlines_from]
  | cons c cs ih =>
    intro cur rest
    have hc : c ≠ '\n' := fun h => hl (by simp [h])
    have hcs : '\n' ∉ cs := fun h => hl (by simp [h])
    simp [getlines_from, hc, ih hcs]

/-- Reading back a file made of newline-terminated lines returns those lines. -/
theorem getlines_join (ls : List CStr) (h : ∀ l ∈ ls, '\n' ∉ l) :
    getlines (ls.map (· ++ ['\n'])).flatten = ls.map (· ++ ['\n']) := by
  induction ls with
  | nil => simp [getlines, getlines_from]
  | cons l ls ih =>
    have hl : '\n' ∉ l := h l (by simp)
    have := ih (fun x hx => h x (by simp [hx]))
    simp only [getlines] at this ⊢
    simp [getlines_from_line l hl, this]

/-! ## Lemmas on the history store -/

theorem write_tokens_succ (n : Nat) (rest : List CStr) : ∀ k : Nat,
    write_tokens n (k + 1) rest = (rest.map (fun a => ' ' :: a)).flatten := by
  induction rest with
  | nil => intro k; simp [write_tokens]
  | cons a rest ih => intro k; simp [write_tokens, ih (k + 1)]

theorem intercalate_space_cons (a : CStr) (rest : List CStr) :
    [' '].intercalate (a :: rest) = a ++ (rest.map (fun b => ' ' :: b)).flatten := by
  induction rest generalizing a with
  | nil => simp [List.intercalate]
  | cons b rest ih =>
    have := ih b
    simp only [List.intercalate, List.intersperse, List.flatten] at this ⊢
    simp [this]

/-- What `write_history` appends for a command with at least one token. -/
theorem history_line_eq (log : Option CStr) (cmd : List CStr) (h : cmd ≠ []) :
    history_line log cmd = history_entry (1 + (log_lines log).length) cmd := by
  have hn : next_line_number log = 1 + (log_lines log).length := by
    cases log <;> simp [next_line_number, log_lines, getlines, getlines_from]
  cases cmd with
  | nil => exact absurd rfl h
  | cons a rest =>
    simp [history_line, history_entry, write_tokens, write_tokens_succ, hn,
      intercalate_space_cons]

theorem intercalate_no_newline (cmd : List CStr) (h : ∀ t ∈ cmd, '\n' ∉ t) :
    '\n' ∉ [' '].intercalate cmd := by
  cases cmd with
  | nil => simp [List.intercalate]
  | cons a rest =>
    rw [intercalate_space_cons]
    intro hmem
    rcases List.mem_append.mp hmem with ha | hr
    · exact h a (by simp) ha
    · obtain ⟨l, hl, hc⟩ := List.mem_flatten.mp hr
      obtain ⟨b, hb, rfl⟩ := List.mem_map.mp hl
      rcases List.mem_cons.mp hc with hc | hc
      · exact absurd hc (by decide)
      · exact h b (by simp [hb]) hc

theorem history_entry_body (n : Nat) (cmd : List CStr) :
    history_entry n cmd = entry_body n cmd ++ ['\n'] := rfl

theorem entry_body_no_newline (n : Nat) (cmd : List CStr) (h : ∀ t ∈ cmd, '\n' ∉ t) :
    '\n' ∉ entry_body n cmd := by
  intro hmem
  simp only [entry_body, List.mem_append] at hmem
  rcases hmem with (hu | hs) | hi
  · exact (utoa_plain n _ hu).2 rfl
  · simp at hs
  · exact intercalate_no_newline cmd h hi

theorem entry_bodies_append (cs : List (List CStr)) : ∀ (k : Nat) (c : List CStr),
    entry_bodies k (cs ++ [c]) = entry_bodies k cs ++ [entry_body (k + cs.length) c] := by
  induction cs with
  | nil => intro k c; simp [entry_bodies]
  | cons d cs ih =>
    intro k c
    simp [entry_bodies, ih (k + 1) c, Nat.add_assoc, Nat.add_comm 1]

theorem entry_bodies_length (cs : List (List CStr)) : ∀ k : Nat,
    (entry_bodies k cs).length = cs.length := by
  induction cs with
  | nil => intro k; rfl
  | cons d cs ih => intro k; simp [entry_bodies, ih (k + 1)]

theorem entry_bodies_get (cs : List (List CStr)) : ∀ (k i : Nat) (h : i < cs.length),
    (entry_bodies k cs)[i]? = some (entry_body (k + i) (cs.get ⟨i, h⟩)) := by
  induction cs with
  | nil => intro k i h; exact absurd h (Nat.not_lt_zero _)
  | cons d cs ih =>
    intro k i h
    cases i with
    | zero => simp [entry_bodies]
    | succ j =>
      have hj : j < cs.length := by simpa using h
      simp [entry_bodies, ih (k + 1) j hj, Nat.add_assoc, Nat.add_comm 1]

theorem entry_bodies_no_newline (cs : List (List CStr))
    (h : ∀ c ∈ cs, ∀ t ∈ c, '\n' ∉ t) : ∀ k : Nat, ∀ l ∈ entry_bodies k cs, '\n' ∉ l := by
  induction cs with
  | nil => intro k l hl; simp [entry_bodies] at hl
  | cons d cs ih =>
    intro k l hl
    simp only [entry_bodies, List.mem_cons] at hl
    rcases hl with rfl | hl
    · exact entry_body_no_newline k d (h d (by simp))
    · exact ih (fun c hc => h c (by simp [hc])) (k + 1) l hl

/-- Contents of the log after a sequence of appends to an absent log. -/
theorem log_after_eq (cmds : List (List CStr)) (hne : ∀ c ∈ cmds, c ≠ [])
    (hnl : ∀ c ∈ cmds, ∀ t ∈ c, '\n' ∉ t) :
    (log_after cmds).getD [] = ((entry_bodies 1 cmds).map (· ++ ['\n'])).flatten := by
  induction cmds using List.reverseRecOn with
  | nil => simp [log_after, World.start, entry_bodies]
  | append_singleton cs c ih =>
    have hne1 : ∀ d ∈ cs, d ≠ [] := fun d hd => hne d (by simp [hd])
    have hnl1 : ∀ d ∈ cs, ∀ t ∈ d, '\n' ∉ t := fun d hd => hnl d (by simp [hd])
    have ih1 := ih hne1 hnl1
    have hc : c ≠ [] := hne c (by simp)
    have hlines : log_lines (log_after cs) = (entry_bodies 1 cs).map (· ++ ['\n']) := by
      rw [log_lines, ih1]
      exact getlines_join _ (entry_bodies_no_newline cs hnl1 1)
    have hstep : log_after (cs ++ [c]) =
        some ((log_after cs).getD [] ++ history_line (log_after cs) c) := by
      simp [log_after, write_history, List.foldl_append]
    rw [hstep, Option.getD_some, history_line_eq _ _ hc, hlines, ih1, entry_bodies_append]
    simp [entry_bodies_length, history_entry_body]

/-- The lines of the log after a sequence of appends to an absent log. -/
theorem log_lines_after (cmds : List (List CStr)) (hne : ∀ c ∈ cmds, c ≠ [])
    (hnl : ∀ c ∈ cmds, ∀ t ∈ c, '\n' ∉ t) :
    log_lines (log_after cmds) = (entry_bodies 1 cmds).map (· ++ ['\n']) := by
  rw [log_lines, log_after_eq cmds hne hnl]
  exact getlines_join _ (entry_bodies_no_newline cmds hnl 1)

theorem entry_bodies_take (cs : List (List CStr)) : ∀ (k j : Nat),
    entry_bodies k (cs.take j) = (entry_bodies k cs).take j := by
  induction cs with
  | nil => intro k j; simp [entry_bodies]
  | cons d cs ih =>
    intro k j
    cases j with
    | zero => simp [entry_bodies]
    | succ j => simp [entry_bodies, ih (k + 1) j]

theorem history_scan_reach (stale : CStr) (lineNum : Int) (ls : List CStr) :
    ∀ (index : Int) (j : Nat) (h : j < ls.length), lineNum = index + j →
    history_scan stale lineNum index ls = copy_command stale (ls.get ⟨j, h⟩) := by
  induction ls with
  | nil => intro index j h; exact absurd h (Nat.not_lt_zero _)
  | cons b rest ih =>
    intro index j h heq
    cases j with
    | zero =>
      have : index = lineNum := by simp [heq]
      simp [history_scan, this]
    | succ j =>
      have hj : j < rest.length := by simpa using h
      have hle : index ≤ lineNum := by rw [heq]; push_cast; omega
      have hne : index ≠ lineNum := by rw [heq]; push_cast; omega
      have hrec := ih (index + 1) j hj (by rw [heq]; push_cast; omega)
      simp [history_scan, hle, hne, hrec]

/-- Copying the command out of a stored entry leaves the numeral and the space after it
behind; the string obtained is the rest of the line, newline included, followed by the stale
bytes, less one trailing newline. -/
theorem copy_command_entry (stale : CStr) (n : Nat) (cmd : List CStr) :
    copy_command stale (history_entry n cmd) =
      Lookup.found
        (if ([' '].intercalate cmd ++ ['\n'] ++ stale).getLast? = some '\n'
         then ([' '].intercalate cmd ++ ['\n'] ++ stale).dropLast
         else [' '].intercalate cmd ++ ['\n'] ++ stale) := by
  have hsp : strcspn_space (history_entry n cmd) = (utoa n).length := by
    have := strcspn_space_append (utoa n) ([' '].intercalate cmd ++ ['\n'])
      (fun c hc => (utoa_plain n c hc).1)
    simpa [history_entry] using this
  have hdrop : (history_entry n cmd).drop ((utoa n).length + 1) =
      [' '].intercalate cmd ++ ['\n'] := by
    have h1 : history_entry n cmd = (utoa n ++ [' ']) ++ ([' '].intercalate cmd ++ ['\n']) := by
      simp [history_entry]
    rw [h1, List.drop_append_eq_append_drop]
    simp
  have hlen : ¬ (history_entry n cmd).length ≤ (utoa n).length + 1 := by
    simp [history_entry]
  simp only [copy_command, hsp, hdrop]
  rw [if_neg hlen]

/-- When a NUL follows the copied text, the command copied out of a stored entry is the
tokens joined by single spaces. -/
theorem copy_command_entry_clean (n : Nat) (cmd : List CStr) :
    copy_command [] (history_entry n cmd) = Lookup.found ([' '].intercalate cmd) := by
  rw [copy_command_entry]
  simp

/-- When other bytes follow the copied text, the newline of the line stays inside the
string copied out of a stored entry, which therefore is not the joined tokens. -/
theorem copy_command_entry_stale (stale : CStr) (hs : stale ≠ []) (n : Nat)
    (cmd : List CStr) :
    ∃ rest : CStr, copy_command stale (history_entry n cmd) =
      Lookup.found ([' '].intercalate cmd ++ '\n' :: rest) := by
  rw [copy_command_entry]
  by_cases hl : ([' '].intercalate cmd ++ ['\n'] ++ stale).getLast? = some '\n'
  · rw [if_pos hl, List.dropLast_append_of_ne_nil _ hs]
    exact ⟨stale.dropLast, by simp⟩
  · rw [if_neg hl]
    exact ⟨stale, by simp⟩

/-! ## Claims on the history store -/

/-- The string the search loop of `execute_history` extracts for line `n` of a log written
by `write_history` from an absent log: it is what `copy_command` makes of the stored entry
of the `n`-th command. -/
theorem history_scan_after_appends (stale : CStr) (cmds : List (List CStr))
    (hne : ∀ c ∈ cmds, c ≠ []) (hnl : ∀ c ∈ cmds, ∀ t ∈ c, '\n' ∉ t) (n : Nat) (h1 : 1 ≤ n)
    (hn : n ≤ cmds.length) :
    history_scan stale (n : Int) 1 (log_lines (log_after cmds)) =
      copy_command stale (history_entry n (cmds.get ⟨n - 1, by omega⟩)) := by
  have hlen : n - 1 < (log_lines (log_after cmds)).length := by
    rw [log_lines_after cmds hne hnl, List.length_map, entry_bodies_length]; omega
  have hget : (log_lines (log_after cmds)).get ⟨n - 1, hlen⟩ =
      history_entry n (cmds.get ⟨n - 1, by omega⟩) := by
    have h2 := entry_bodies_get cmds 1 (n - 1) (by omega)
    have h3 : (log_lines (log_after cmds))[n - 1]? =
        some (history_entry n (cmds.get ⟨n - 1, by omega⟩)) := by
      rw [log_lines_after cmds hne hnl, List.getElem?_map, h2]
      have : 1 + (n - 1) = n := by omega
      simp [history_entry_body, this]
    have h4 := List.getElem?_eq_getElem hlen
    rw [h3] at h4
    exact (Option.some.inj h4).symm
  rw [history_scan_reach stale (n : Int) _ 1 (n - 1) hlen (by omega), hget]

/-- The round trip holds when the byte after the copied text is a NUL: the string extracted
for line `n` is then the `n`-th command's tokens joined by single spaces. -/
theorem history_round_trip_clean (cmds : List (List CStr)) (hne : ∀ c ∈ cmds, c ≠ [])
    (hnl : ∀ c ∈ cmds, ∀ t ∈ c, '\n' ∉ t) (n : Nat) (h1 : 1 ≤ n) (hn : n ≤ cmds.length) :
    history_scan [] (n : Int) 1 (log_lines (log_after cmds)) =
      Lookup.found ([' '].intercalate (cmds.get ⟨n - 1, by omega⟩)) := by
  rw [history_scan_after_appends [] cmds hne hnl n h1 hn, copy_command_entry_clean]

/-- The round trip fails for every other content of the memory after the copied text: the
string extracted for line `n` then goes on after the joined tokens with the newline of the
line. -/
theorem history_round_trip_stale (stale : CStr) (hs : stale ≠ []) (cmds : List (List CStr))
    (hne : ∀ c ∈ cmds, c ≠ []) (hnl : ∀ c ∈ cmds, ∀ t ∈ c, '\n' ∉ t) (n : Nat) (h1 : 1 ≤ n)
    (hn : n ≤ cmds.length) :
    ∃ rest : CStr, history_scan stale (n : Int) 1 (log_lines (log_after cmds)) =
      Lookup.found ([' '].intercalate (cmds.get ⟨n - 1, by omega⟩) ++ '\n' :: rest) := by
  rw [history_scan_after_appends stale cmds hne hnl n h1 hn]
  exact copy_command_entry_stale stale hs n _

/-- C1 on the log written for `ls -l` and `ps aux`, line 2: lines 283-285 copy `ps aux` and
the newline into a block of exactly that size and write no NUL, so the string extracted goes
on with the bytes that follow in memory.  With the byte `x` there, it is `ps aux`, newline,
`x`: the newline is not removed, the command is tokenized to `ps` and `aux\nx`, and that is
what `history 2` runs.  Only with a NUL there is the string `ps aux`.  In general, whatever
the stored command, the string is the joined tokens, the newline and the stale bytes, less
one trailing newline. -/
theorem history_round_trip_unterminated :
    history_scan ['x'] 2 1
        (log_lines (log_after [[['l', 's'], ['-', 'l']], [['p', 's'], ['a', 'u', 'x']]])) =
      Lookup.found ['p', 's', ' ', 'a', 'u', 'x', '\n', 'x'] ∧
    execute_history (stale_env ['x']) 1
        (World.start (log_after [[['l', 's'], ['-', 'l']], [['p', 's'], ['a', 'u', 'x']]]))
        [HISTORY, ['2']] =
      some (Outcome.ret 0
        { log := log_after [[['l', 's'], ['-', 'l']], [['p', 's'], ['a', 'u', 'x']]]
          forks := 1
          trace := [Event.history_handler [HISTORY, ['2']],
            Event.replay ['p', 's', ' ', 'a', 'u', 'x', '\n', 'x'],
            Event.external [['p', 's'], ['a', 'u', 'x', '\n', 'x']],
            Event.child [['p', 's'], ['a', 'u', 'x', '\n', 'x']], Event.waited] }) ∧
    history_scan [] 2 1
        (log_lines (log_after [[['l', 's'], ['-', 'l']], [['p', 's'], ['a', 'u', 'x']]])) =
      Lookup.found ['p', 's', ' ', 'a', 'u', 'x'] ∧
    (∀ (stale : CStr) (n : Nat) (cmd : List CStr),
      copy_command stale (history_entry n cmd) =
        Lookup.found
          (if ([' '].intercalate cmd ++ ['\n'] ++ stale).getLast? = some '\n'
           then ([' '].intercalate cmd ++ ['\n'] ++ stale).dropLast
           else [' '].intercalate cmd ++ ['\n'] ++ stale)) := by
  refine ⟨by decide, by decide, by decide, ?_⟩
  intro stale n cmd
  exact copy_command_entry stale n cmd

/-- C2: starting from an absent log, after `k` calls of `write_history`, each command having
at least one token and no newline in a token, the log has exactly `k` lines, line `i` is the
decimal numeral of `i`, one space, the `i`-th command's tokens joined by single spaces and a
newline, and the lines present after the first `j` calls are still the first `j` lines. -/
theorem write_history_numbering (cmds : List (List CStr)) (hne : ∀ c ∈ cmds, c ≠ [])
    (hnl : ∀ c ∈ cmds, ∀ t ∈ c, '\n' ∉ t) :
    (log_lines (log_after cmds)).length = cmds.length ∧
    (∀ (i : Nat) (h : i < cmds.length),
      (log_lines (log_after cmds))[i]? = some (history_entry (i + 1) (cmds.get ⟨i, h⟩))) ∧
    (∀ j : Nat, log_lines (log_after (cmds.take j)) = (log_lines (log_after cmds)).take j) := by
  refine ⟨?_, ?_, ?_⟩
  · rw [log_lines_after cmds hne hnl, List.length_map, entry_bodies_length]
  · intro i h
    rw [log_lines_after cmds hne hnl, List.getElem?_map, entry_bodies_get cmds 1 i h]
    simp [history_entry_body, Nat.add_comm]
  · intro j
    have hne1 : ∀ c ∈ cmds.take j, c ≠ [] := fun c hc => hne c (List.mem_of_mem_take hc)
    have hnl1 : ∀ c ∈ cmds.take j, ∀ t ∈ c, '\n' ∉ t :=
      fun c hc => hnl c (List.mem_of_mem_take hc)
    rw [log_lines_after cmds hne hnl, log_lines_after _ hne1 hnl1, entry_bodies_take,
      List.map_take]

theorem write_history_numbering_witness :
    (log_lines (log_after [[['l', 's']], [HISTORY], [EXIT]])).length = 3 ∧
    (log_lines (log_after [[['l', 's']], [HISTORY], [EXIT]]))[2]? =
      some ['3', ' ', 'e', 'x', 'i', 't', '\n'] := by
  have h := write_history_numbering [[['l', 's']], [HISTORY], [EXIT]] (by decide) (by decide)
  exact ⟨h.1, h.2.1 2 (by decide)⟩

/-! ## Claims on the tokenizer -/

theorem strtok_from_tokens (s : CStr) : ∀ cur : CStr, ' ' ∉ cur →
    ∀ t ∈ strtok_from cur s, t ≠ [] ∧ ' ' ∉ t := by
  induction s with
  | nil =>
    intro cur hcur t ht
    by_cases hc : cur = []
    · simp [strtok_from, hc] at ht
    · simp only [strtok_from, if_neg hc, List.mem_singleton] at ht
      subst ht; exact ⟨hc, hcur⟩
  | cons c cs ih =>
    intro cur hcur t ht
    by_cases hsp : c = ' '
    · by_cases hc : cur = []
      · simp only [strtok_from, if_pos hsp, if_pos hc] at ht
        exact ih [] (by simp) t ht
      · simp only [strtok_from, if_pos hsp, if_neg hc, List.mem_cons] at ht
        rcases ht with rfl | ht
        · exact ⟨hc, hcur⟩
        · exact ih [] (by simp) t ht
    · simp only [strtok_from, if_neg hsp] at ht
      refine ih (cur ++ [c]) ?_ t ht
      intro hmem
      rcases List.mem_append.mp hmem with h | h
      · exact hcur h
      · have hc : ' ' = c := by simpa using h
        exact hsp hc.symm

theorem strtok_from_flatten (s : CStr) : ∀ cur : CStr,
    (strtok_from cur s).flatten = cur ++ s.filter (fun c => decide (c ≠ ' ')) := by
  induction s with
  | nil => intro cur; by_cases hc : cur = [] <;> simp [strtok_from, hc]
  | cons c cs ih =>
    intro cur
    by_cases hsp : c = ' '
    · by_cases hc : cur = [] <;> simp [strtok_from, hsp, hc, ih []]
    · simp [strtok_from, hsp, ih (cur ++ [c])]

/-- Tokens separated by single spaces are found again by `strtok`. -/
theorem strtok_from_intercalate (toks : List CStr) (h : ∀ t ∈ toks, t ≠ [] ∧ ' ' ∉ t) :
    strtok_all ([' '].intercalate toks) = toks := by
  have run : ∀ (t : CStr), ' ' ∉ t → ∀ (cur rest : CStr),
      strtok_from cur (t ++ rest) = strtok_from (cur ++ t) rest := by
    intro t
    induction t with
    | nil => intro _ cur rest; simp
    | cons c cs ih =>
      intro ht cur rest
      have hc : c ≠ ' ' := fun e => ht (by simp [e])
      have hcs : ' ' ∉ cs := fun e => ht (by simp [e])
      simp [strtok_from, hc, ih hcs (cur ++ [c]) rest]
  induction toks with
  | nil => simp [strtok_all, strtok_from, List.intercalate]
  | cons a rest ih =>
    have ha := h a (by simp)
    have hrest : ∀ t ∈ rest, t ≠ [] ∧ ' ' ∉ t := fun t ht => h t (by simp [ht])
    cases rest with
    | nil =>
      have := run a ha.2 [] []
      simp only [List.append_nil, List.nil_append] at this
      simp [strtok_all, List.intercalate, this, strtok_from, ha.1]
    | cons b more =>
      have ih1 := ih hrest
      rw [intercalate_space_cons] at ih1 ⊢
      simp only [strtok_all, List.map_cons, List.flatten_cons, List.cons_append] at ih1 ⊢
      rw [run a ha.2 [] _]
      simp only [List.nil_append, strtok_from, if_true, if_neg ha.1]
      rw [ih1]

/-- A line without unquoted space after index 0 that fits the 8-byte block is returned as
the single token. -/
theorem parse_command_single_token (env : Env) (line : CStr)
    (h : env.first_unquoted_space (env.unescape line) ≤ 0)
    (hfit : (env.unescape line).length + 1 ≤ 8) :
    parse_command env line = some [env.unescape line] := by
  have h1 : ¬ env.first_unquoted_space (env.unescape line) > 0 := by omega
  have h2 : fits env 8 (env.unescape line) = true := by
    simp only [fits, decide_eq_true_eq]; omega
  simp [parse_command, h1, h2]

/-- C6 on the line `abcdefghijklmnopqrstuvwxyz`: it has no unquoted space, so line 146
allocates `sizeof (line)` = 8 bytes and line 147 copies the 26 characters and the NUL into
them: the copy runs past the block, also past the 24 bytes glibc makes usable, and no token
is returned; the prompt loop ends in undefined behaviour.  A line of 8 characters already
needs more than the 8 bytes asked for.  Lines of up to 7 characters, the empty line among
them, give the single token the claim describes. -/
theorem parse_command_single_token_overrun :
    (model_env fun _ => true).first_unquoted_space ((model_env fun _ => true).unescape
        ['a', 'b', 'c', 'd', 'e', 'f', 'g', 'h', 'i', 'j', 'k', 'l', 'm', 'n', 'o', 'p', 'q',
         'r', 's', 't', 'u', 'v', 'w', 'x', 'y', 'z']) = -1 ∧
    parse_command (model_env fun _ => true)
        ['a', 'b', 'c', 'd', 'e', 'f', 'g', 'h', 'i', 'j', 'k', 'l', 'm', 'n', 'o', 'p', 'q',
         'r', 's', 't', 'u', 'v', 'w', 'x', 'y', 'z'] = none ∧
    user_prompt_loop (model_env fun _ => true) 1 0 (World.start none)
        [['a', 'b', 'c', 'd', 'e', 'f', 'g', 'h', 'i', 'j', 'k', 'l', 'm', 'n', 'o', 'p', 'q',
          'r', 's', 't', 'u', 'v', 'w', 'x', 'y', 'z', '\n']] =
      some (Outcome.overrun (World.start none)) ∧
    fits { unescape := unescape_model, first_unquoted_space := first_unquoted_space_from 0 false,
           fork_ok := fun _ => true, child := fun _ log => log, slack := fun _ => 0,
           stale := fun _ => [], argv_tail := fun _ => [] } 8
        ['a', 'b', 'c', 'd', 'e', 'f', 'g', 'h'] = false ∧
    parse_command (model_env fun _ => true) ['a', 'b', 'c', 'd', 'e', 'f', 'g'] =
      some [['a', 'b', 'c', 'd', 'e', 'f', 'g']] ∧
    parse_command (model_env fun _ => true) [] = some [[]] := by
  decide

/-- C5, as the code has it: when the first unquoted space of the escape-resolved line is at
an index greater than 0 and every run of characters other than the space has at most 8
characters, so that its copy fits the 9-byte block of line 131, `parse_command` returns the
tokens `strtok` finds with the delimiter `" "`.  It splits at every space, quoted or not: no
token is empty, no token contains a space, the tokens put together are the line without its
spaces, and a line that contains a space is not returned as one token. -/
theorem parse_command_splits_all_spaces (env : Env) (line : CStr)
    (h : 0 < env.first_unquoted_space (env.unescape line))
    (hfit : ∀ t ∈ strtok_all (env.unescape line), t.length + 1 ≤ 9) :
    parse_command env line = some (strtok_all (env.unescape line)) ∧
    (∀ t ∈ strtok_all (env.unescape line), t ≠ [] ∧ ' ' ∉ t) ∧
    (strtok_all (env.unescape line)).flatten =
      (env.unescape line).filter (fun c => decide (c ≠ ' ')) ∧
    (' ' ∈ env.unescape line → parse_command env line ≠ some [env.unescape line]) := by
  have hall : (strtok_all (env.unescape line)).all (fits env 9) = true := by
    rw [List.all_eq_true]
    intro t ht
    have := hfit t ht
    simp only [fits, decide_eq_true_eq]; omega
  have hp : parse_command env line = some (strtok_all (env.unescape line)) := by
    simp [parse_command, h, hall]
  refine ⟨hp, strtok_from_tokens _ [] (by simp), ?_, ?_⟩
  · simpa using strtok_from_flatten (env.unescape line) []
  · intro hsp heq
    rw [hp] at heq
    have heq1 : strtok_all (env.unescape line) = [env.unescape line] := Option.some.inj heq
    have := strtok_from_tokens (env.unescape line) [] (by simp) (env.unescape line)
      (by rw [← strtok_all, heq1]; simp)
    exact this.2 hsp

theorem parse_command_splits_all_spaces_witness :
    parse_command (model_env fun _ => true) ['a', ' ', '"', 'b', ' ', 'c', '"'] =
      some [['a'], ['"', 'b'], ['c', '"']] :=
  (parse_command_splits_all_spaces (model_env fun _ => true)
    ['a', ' ', '"', 'b', ' ', 'c', '"'] (by decide) (by decide)).1

/-- When the first unquoted space is at index 0 the test `space > 0` fails and the line is
handled as in the case without any unquoted space. -/
theorem parse_command_space_at_zero (env : Env) (line : CStr)
    (h : env.first_unquoted_space (env.unescape line) = 0)
    (hfit : (env.unescape line).length + 1 ≤ 8) :
    parse_command env line = some [env.unescape line] :=
  parse_command_single_token env line (by omega) hfit

/-- C5, as stated, fails: the line `a "b c"` has an unquoted space (at index 1), the
tokenizer that splits at unquoted spaces only gives `a` and `"b c"`, and `parse_command`
gives `a`, `"b` and `c"`: the space inside the quotes separates two tokens. -/
theorem parse_command_splits_quoted_space :
    (model_env fun _ => true).first_unquoted_space
        ((model_env fun _ => true).unescape ['a', ' ', '"', 'b', ' ', 'c', '"']) = 1 ∧
    split_unquoted_from [] false
        ((model_env fun _ => true).unescape ['a', ' ', '"', 'b', ' ', 'c', '"']) =
      [['a'], ['"', 'b', ' ', 'c', '"']] ∧
    parse_command (model_env fun _ => true) ['a', ' ', '"', 'b', ' ', 'c', '"'] =
      some [['a'], ['"', 'b'], ['c', '"']] ∧
    parse_command (model_env fun _ => true) ['a', ' ', '"', 'b', ' ', 'c', '"'] ≠
      some (split_unquoted_from [] false
        ((model_env fun _ => true).unescape ['a', ' ', '"', 'b', ' ', 'c', '"'])) := by
  decide

/-! ## The router -/

theorem execute_command_trace (env : Env) (w : World) (args : List CStr) :
    ∃ evs, (execute_command env w args).world.trace =
      w.trace ++ Event.external args :: evs := by
  unfold execute_command
  split
  · exact ⟨_, by simp [Outcome.world]; rfl⟩
  · exact ⟨_, by simp [Outcome.world]; rfl⟩

theorem execute_proc_trace (env : Env) (w : World) (args : List CStr) :
    ∃ evs, (execute_proc env w args).world.trace =
      w.trace ++ Event.proc_handler args :: evs := by
  unfold execute_proc
  split
  · exact ⟨[], by simp [Outcome.world, World.push]⟩
  · exact ⟨[], by simp [Outcome.world, World.push]⟩
  · rename_i a0 a1
    simp only
    split
    · obtain ⟨evs, h⟩ := execute_command_trace env (w.push (Event.proc_handler [a0, a1]))
        ([['c', 'a', 't'], a0 ++ ['/'] ++ a1] ++
          env.argv_tail (w.push (Event.proc_handler [a0, a1])))
      refine ⟨Event.external ([['c', 'a', 't'], a0 ++ ['/'] ++ a1] ++
          env.argv_tail (w.push (Event.proc_handler [a0, a1]))) :: evs, ?_⟩
      show (execute_command env (w.push (Event.proc_handler [a0, a1]))
        ([['c', 'a', 't'], a0 ++ ['/'] ++ a1] ++
          env.argv_tail (w.push (Event.proc_handler [a0, a1])))).world.trace = _
      rw [h]; simp [World.push]
    · exact ⟨[], by simp [Outcome.world, World.push]⟩
  · exact ⟨[], by simp [Outcome.world, World.push]⟩

theorem execute_exit_trace (w : World) (args : List CStr) :
    (execute_exit w args).world.trace = w.trace ++ [Event.exit_handler args] := by
  unfold execute_exit
  split <;> simp [Outcome.world, World.push]

theorem write_history_trace (w : World) (args : List CStr) :
    (write_history w args).trace = w.trace ++ [Event.history_written args] := rfl

theorem first_call_of_head (w : World) (o : Outcome) (evs : List Event)
    (h : o.world.trace = w.trace ++ evs) : first_call w o = evs.head? := by
  rw [first_call, h, List.getElem?_append_right (Nat.le_refl _)]
  cases evs <;> simp

/-- What the replay chain records, given that the nested `execute_history` starts by
recording its own call: the trace grows, and the first new call is the expected one. -/
theorem replay_dispatch_trace (env : Env) (again : World → List CStr → Option Outcome)
    (hagain : ∀ w args o, again w args = some o →
      ∃ evs, o.world.trace = w.trace ++ Event.history_handler args :: evs)
    (w : World) (c0 : CStr) (rest : List CStr) (o : Outcome)
    (h : replay_dispatch env again w (c0 :: rest) = some o) :
    ∃ evs, o.world.trace = w.trace ++ evs ∧ evs.head? = expected_call c0 (c0 :: rest) := by
  unfold replay_dispatch at h
  simp only at h
  unfold expected_call
  by_cases h1 : c0 = EXIT
  · rw [if_pos h1] at h ⊢
    have ht := execute_exit_trace w (c0 :: rest)
    cases hx : execute_exit w (c0 :: rest) with
    | ret rc w1 =>
      rw [hx] at h ht
      simp only [Outcome.world] at ht
      by_cases hrc : rc = 0
      · simp only [hrc, if_true, Option.some.injEq] at h
        subst h
        exact ⟨[Event.exit_handler (c0 :: rest), Event.history_written (c0 :: rest)],
          by simp [Outcome.world, write_history_trace, ht], rfl⟩
      · simp only [hrc, if_false, Option.some.injEq] at h
        subst h
        exact ⟨[Event.exit_handler (c0 :: rest)], by simp [Outcome.world, ht], rfl⟩
    | exited st w1 =>
      rw [hx] at h ht; simp only [Option.some.injEq] at h; subst h
      exact ⟨[Event.exit_handler (c0 :: rest)], ht, rfl⟩
    | crashed w1 =>
      rw [hx] at h ht; simp only [Option.some.injEq] at h; subst h
      exact ⟨[Event.exit_handler (c0 :: rest)], ht, rfl⟩
    | overrun w1 =>
      rw [hx] at h ht; simp only [Option.some.injEq] at h; subst h
      exact ⟨[Event.exit_handler (c0 :: rest)], ht, rfl⟩
    | starved w1 =>
      rw [hx] at h ht; simp only [Option.some.injEq] at h; subst h
      exact ⟨[Event.exit_handler (c0 :: rest)], ht, rfl⟩
  · rw [if_neg h1] at h ⊢
    by_cases h2 : c0 = PROC
    · rw [if_pos h2] at h ⊢
      simp only [Option.some.injEq] at h; subst h
      obtain ⟨evs, he⟩ := execute_proc_trace env w (c0 :: rest)
      exact ⟨_, he, rfl⟩
    · rw [if_neg h2] at h ⊢
      by_cases h3 : c0 = HISTORY
      · rw [if_pos h3] at h ⊢
        obtain ⟨evs, he⟩ := hagain w _ o h
        exact ⟨_, he, rfl⟩
      · rw [if_neg h3] at h ⊢
        by_cases h4 : c0 = []
        · simp only [h4, List.length_nil, if_true, Option.some.injEq] at h ⊢
          subst h
          exact ⟨[], by simp [Outcome.world], rfl⟩
        · have h5 : ¬ c0.length = 0 := by simpa using h4
          rw [if_neg h5] at h
          rw [if_neg h4]
          simp only [Option.some.injEq] at h; subst h
          obtain ⟨evs, he⟩ := execute_command_trace env w (c0 :: rest)
          exact ⟨_, he, rfl⟩

/-- Every invocation of `execute_history` that ends starts by recording its call. -/
theorem execute_history_trace (env : Env) (fuel : Nat) : ∀ (w : World) (args : List CStr)
    (o : Outcome), execute_history env fuel w args = some o →
    ∃ evs, o.world.trace = w.trace ++ Event.history_handler args :: evs := by
  induction fuel with
  | zero => intro w args o h; simp [execute_history] at h
  | succ fuel ih =>
    intro w args o h
    unfold execute_history at h
    simp only [World.push] at h
    split at h
    · simp only [Option.some.injEq] at h; subst h; exact ⟨[], rfl⟩
    · split at h
      · simp only [Option.some.injEq] at h; subst h; exact ⟨[], rfl⟩
      · simp only [Option.some.injEq] at h; subst h; exact ⟨[], rfl⟩
      · split at h
        · simp only [Option.some.injEq] at h; subst h; exact ⟨[], rfl⟩
        · simp only [Option.some.injEq] at h; subst h; exact ⟨[], rfl⟩
        · rename_i histArgs _
          cases hp : parse_command env histArgs with
          | none =>
            rw [hp] at h
            simp only [Option.some.injEq] at h
            subst h
            exact ⟨[Event.replay histArgs], by simp [Outcome.world]⟩
          | some command =>
            rw [hp] at h
            simp only at h
            cases command with
            | nil =>
              simp only [replay_dispatch, Option.some.injEq] at h
              subst h
              exact ⟨[Event.replay histArgs], by simp [Outcome.world]⟩
            | cons c0 rest =>
              obtain ⟨evs, he, _⟩ := replay_dispatch_trace env _ ih _ c0 rest o h
              exact ⟨Event.replay histArgs :: evs, by rw [he]; simp⟩
      · simp only [Option.some.injEq] at h; subst h; exact ⟨[], rfl⟩

/-- What the chain of the prompt loop records: the trace grows, and the first new call is
the expected one. -/
theorem prompt_dispatch_trace (env : Env) (fuel : Nat) (returnCode : Int) (w : World)
    (c0 : CStr) (rest : List CStr) (o : Outcome) (run : Bool)
    (h : prompt_dispatch env fuel returnCode w (c0 :: rest) = some (o, run)) :
    ∃ evs, o.world.trace = w.trace ++ evs ∧ evs.head? = expected_call c0 (c0 :: rest) := by
  unfold prompt_dispatch at h
  simp only at h
  unfold expected_call
  by_cases h1 : c0 = EXIT
  · rw [if_pos h1] at h ⊢
    have ht := execute_exit_trace w (c0 :: rest)
    cases hx : execute_exit w (c0 :: rest) <;>
      (rw [hx] at h ht
       simp only [Option.some.injEq, Prod.mk.injEq] at h
       obtain ⟨h, _⟩ := h
       subst h
       exact ⟨[Event.exit_handler (c0 :: rest)], ht, rfl⟩)
  · rw [if_neg h1] at h ⊢
    by_cases h2 : c0 = PROC
    · rw [if_pos h2] at h ⊢
      simp only [Option.some.injEq, Prod.mk.injEq] at h
      obtain ⟨h, _⟩ := h
      subst h
      obtain ⟨evs, he⟩ := execute_proc_trace env w (c0 :: rest)
      exact ⟨_, he, rfl⟩
    · rw [if_neg h2] at h ⊢
      by_cases h3 : c0 = HISTORY
      · rw [if_pos h3] at h ⊢
        cases hh : execute_history env fuel w (c0 :: rest) with
        | none => rw [hh] at h; simp at h
        | some o1 =>
          rw [hh] at h
          simp only [Option.map_some', Option.some.injEq, Prod.mk.injEq] at h
          obtain ⟨h, _⟩ := h
          subst h
          obtain ⟨evs, he⟩ := execute_history_trace env fuel w _ _ hh
          exact ⟨_, he, rfl⟩
      · rw [if_neg h3] at h ⊢
        by_cases h4 : c0 = []
        · simp only [h4, List.length_nil, if_true, Option.some.injEq, Prod.mk.injEq] at h ⊢
          obtain ⟨h, _⟩ := h
          subst h
          exact ⟨[], by simp [Outcome.world], rfl⟩
        · have h5 : ¬ c0.length = 0 := by simpa using h4
          rw [if_neg h5] at h
          rw [if_neg h4]
          simp only [Option.some.injEq, Prod.mk.injEq] at h
          obtain ⟨h, _⟩ := h
          subst h
          obtain ⟨evs, he⟩ := execute_command_trace env w (c0 :: rest)
          exact ⟨_, he, rfl⟩

/-- The three reserved names are recognised by equality of the first token and by nothing
else: which handler call comes first determines, and is determined by, the first token. -/
theorem expected_call_iff (c0 : CStr) (command : List CStr) :
    (expected_call c0 command = some (Event.exit_handler command) ↔ c0 = EXIT) ∧
    (expected_call c0 command = some (Event.proc_handler command) ↔ c0 = PROC) ∧
    (expected_call c0 command = some (Event.history_handler command) ↔ c0 = HISTORY) ∧
    (expected_call c0 command = some (Event.external command) ↔
      (c0 ≠ EXIT ∧ c0 ≠ PROC ∧ c0 ≠ HISTORY ∧ c0 ≠ [])) ∧
    (expected_call c0 command = none ↔ c0 = []) := by
  have e1 : EXIT ≠ PROC := by decide
  have e2 : EXIT ≠ HISTORY := by decide
  have e3 : PROC ≠ HISTORY := by decide
  have e4 : EXIT ≠ [] := by decide
  have e5 : PROC ≠ [] := by decide
  have e6 : HISTORY ≠ [] := by decide
  unfold expected_call
  by_cases h1 : c0 = EXIT
  · subst h1; simp [e1, e2, e4]
  · by_cases h2 : c0 = PROC
    · subst h2; simp [e1.symm, e3, e5]
    · by_cases h3 : c0 = HISTORY
      · subst h3; simp [e2.symm, e3.symm, e6]
      · by_cases h4 : c0 = []
        · subst h4; simp [e4.symm, e5.symm, e6.symm]
        · simp [h1, h2, h3, h4]

/-- What `execute_exit` returns for a command with at least one token. -/
theorem execute_exit_eq (w : World) (c0 : CStr) (rest : List CStr) :
    execute_exit w (c0 :: rest) =
      Outcome.ret (if rest = [] then 0 else -1) (w.push (Event.exit_handler (c0 :: rest))) := by
  cases rest <;> simp [execute_exit]

/-- C7: in the prompt loop and in replay alike the router compares the first token with the
three reserved names and calls exactly the handler that matches.  For `exit` it is
`execute_exit`; for `/proc` it is `execute_proc`; for `history` the result of the dispatch
is the result of the call of `execute_history` on the same tokens (in replay, of the nested
call, whatever it does); an empty first token calls nothing and leaves the state unchanged;
every other first token gives `execute_command` on the unchanged token list.  Conversely,
whenever the dispatch has an outcome, the first call recorded is that of the exit, `/proc` or
history handler iff the first token equals that name. -/
theorem router_exact_match (env : Env) (fuel : Nat) (returnCode : Int) (w : World)
    (c0 : CStr) (rest : List CStr) (again : World → List CStr → Option Outcome) :
    (c0 = EXIT → prompt_dispatch env fuel returnCode w (c0 :: rest) =
      some (execute_exit w (c0 :: rest), decide (rest ≠ []))) ∧
    (c0 = PROC → prompt_dispatch env fuel returnCode w (c0 :: rest) =
      some (execute_proc env w (c0 :: rest), true)) ∧
    (c0 = HISTORY → prompt_dispatch env fuel returnCode w (c0 :: rest) =
      (execute_history env fuel w (c0 :: rest)).map (fun o => (o, true))) ∧
    (c0 = [] → prompt_dispatch env fuel returnCode w (c0 :: rest) =
      some (Outcome.ret returnCode w, true)) ∧
    (c0 ≠ EXIT → c0 ≠ PROC → c0 ≠ HISTORY → c0 ≠ [] →
      prompt_dispatch env fuel returnCode w (c0 :: rest) =
        some (execute_command env w (c0 :: rest), true)) ∧
    (c0 = EXIT → replay_dispatch env again w (c0 :: rest) =
      some (if rest = [] then
              Outcome.exited 0
                (write_history (w.push (Event.exit_handler (c0 :: rest))) (c0 :: rest))
            else execute_exit w (c0 :: rest))) ∧
    (c0 = PROC → replay_dispatch env again w (c0 :: rest) =
      some (execute_proc env w (c0 :: rest))) ∧
    (c0 = HISTORY → replay_dispatch env again w (c0 :: rest) = again w (c0 :: rest)) ∧
    (c0 = [] → replay_dispatch env again w (c0 :: rest) = some (Outcome.ret 0 w)) ∧
    (c0 ≠ EXIT → c0 ≠ PROC → c0 ≠ HISTORY → c0 ≠ [] →
      replay_dispatch env again w (c0 :: rest) = some (execute_command env w (c0 :: rest))) ∧
    (∀ o run, prompt_dispatch env fuel returnCode w (c0 :: rest) = some (o, run) →
      RoutedByFirstToken env w c0 rest o) ∧
    (∀ o, replay_dispatch env (execute_history env fuel) w (c0 :: rest) = some o →
      RoutedByFirstToken env w c0 rest o) := by
  have e1 : EXIT ≠ PROC := by decide
  have e2 : EXIT ≠ HISTORY := by decide
  have e3 : PROC ≠ HISTORY := by decide
  have e4 : ([] : CStr) ≠ EXIT := by decide
  have e5 : ([] : CStr) ≠ PROC := by decide
  have e6 : ([] : CStr) ≠ HISTORY := by decide
  obtain ⟨i1, i2, i3, i4, _⟩ := expected_call_iff c0 (c0 :: rest)
  refine ⟨?_, ?_, ?_, ?_, ?_, ?_, ?_, ?_, ?_, ?_, ?_, ?_⟩
  · intro h
    subst h
    simp only [prompt_dispatch, if_true, execute_exit_eq]
    cases rest <;> simp
  · intro h
    subst h
    simp only [prompt_dispatch, if_neg e1.symm, if_true]
  · intro h
    subst h
    simp only [prompt_dispatch, if_neg e2.symm, if_neg e3.symm, if_true]
  · intro h
    subst h
    simp only [prompt_dispatch, if_neg e4, if_neg e5, if_neg e6, List.length_nil, if_true]
  · intro h1 h2 h3 h4
    have h5 : ¬ c0.length = 0 := by simpa using h4
    simp only [prompt_dispatch, if_neg h1, if_neg h2, if_neg h3, if_neg h5]
  · intro h
    subst h
    simp only [replay_dispatch, if_true, execute_exit_eq]
    cases rest <;> simp
  · intro h
    subst h
    simp only [replay_dispatch, if_neg e1.symm, if_true]
  · intro h
    subst h
    simp only [replay_dispatch, if_neg e2.symm, if_neg e3.symm, if_true]
  · intro h
    subst h
    simp only [replay_dispatch, if_neg e4, if_neg e5, if_neg e6, List.length_nil, if_true]
  · intro h1 h2 h3 h4
    have h5 : ¬ c0.length = 0 := by simpa using h4
    simp only [replay_dispatch, if_neg h1, if_neg h2, if_neg h3, if_neg h5]
  · intro o run h
    obtain ⟨evs, he, hh⟩ := prompt_dispatch_trace env fuel returnCode w c0 rest o run h
    have hf : first_call w o = expected_call c0 (c0 :: rest) := by
      rw [first_call_of_head w o evs he, hh]
    refine ⟨by rw [hf]; exact i1, by rw [hf]; exact i2, by rw [hf]; exact i3,
      by rw [hf]; exact i4, ?_, ?_⟩
    · intro h0
      subst h0
      simp [prompt_dispatch, e4, e5, e6] at h
      rw [← h.1]; rfl
    · intro h1 h2 h3 h4
      simp [prompt_dispatch, h1, h2, h3, h4] at h
      exact h.1.symm
  · intro o h
    obtain ⟨evs, he, hh⟩ := replay_dispatch_trace env _ (execute_history_trace env fuel)
      w c0 rest o h
    have hf : first_call w o = expected_call c0 (c0 :: rest) := by
      rw [first_call_of_head w o evs he, hh]
    refine ⟨by rw [hf]; exact i1, by rw [hf]; exact i2, by rw [hf]; exact i3,
      by rw [hf]; exact i4, ?_, ?_⟩
    · intro h0
      subst h0
      simp [replay_dispatch, e4, e5, e6] at h
      rw [← h]; rfl
    · intro h1 h2 h3 h4
      simp [replay_dispatch, h1, h2, h3, h4] at h
      exact h.symm

/-- C7 on one command of each kind, with the log absent: `exit`, `/proc cpuinfo`,
`history 1`, the empty token, and the single tokens `/proc/foo` and `exit2`, which equal no
reserved name and go to `execute_command`. -/
theorem router_exact_match_witness :
    prompt_dispatch (model_env fun _ => true) 1 0 (World.start none) [EXIT] =
      some (Outcome.ret 0 ⟨none, 0, [Event.exit_handler [EXIT]]⟩, false) ∧
    prompt_dispatch (model_env fun _ => true) 1 0 (World.start none)
        [PROC, ['c', 'p', 'u', 'i', 'n', 'f', 'o']] =
      some (execute_proc (model_env fun _ => true) (World.start none)
        [PROC, ['c', 'p', 'u', 'i', 'n', 'f', 'o']], true) ∧
    prompt_dispatch (model_env fun _ => true) 1 0 (World.start none) [HISTORY, ['1']] =
      some (Outcome.ret (-1) ⟨none, 0, [Event.history_handler [HISTORY, ['1']]]⟩, true) ∧
    prompt_dispatch (model_env fun _ => true) 1 0 (World.start none) [[]] =
      some (Outcome.ret 0 (World.start none), true) ∧
    prompt_dispatch (model_env fun _ => true) 1 0 (World.start none)
        [['/', 'p', 'r', 'o', 'c', '/', 'f', 'o', 'o']] =
      some (Outcome.ret 0 ⟨none, 1,
        [Event.external [['/', 'p', 'r', 'o', 'c', '/', 'f', 'o', 'o']],
         Event.child [['/', 'p', 'r', 'o', 'c', '/', 'f', 'o', 'o']], Event.waited]⟩, true) ∧
    replay_dispatch (model_env fun _ => true) (execute_history (model_env fun _ => true) 1)
        (World.start none) [EXIT] =
      some (Outcome.exited 0 ⟨some ['1', ' ', 'e', 'x', 'i', 't', '\n'], 0,
        [Event.exit_handler [EXIT], Event.history_written [EXIT]]⟩) ∧
    replay_dispatch (model_env fun _ => true) (execute_history (model_env fun _ => true) 1)
        (World.start none) [HISTORY, ['1']] =
      some (Outcome.ret (-1) ⟨none, 0, [Event.history_handler [HISTORY, ['1']]]⟩) ∧
    replay_dispatch (model_env fun _ => true) (execute_history (model_env fun _ => true) 1)
        (World.start none) [['e', 'x', 'i', 't', '2']] =
      some (Outcome.ret 0 ⟨none, 1, [Event.external [['e', 'x', 'i', 't', '2']],
        Event.child [['e', 'x', 'i', 't', '2']], Event.waited]⟩) :=
  ⟨(router_exact_match (model_env fun _ => true) 1 0 (World.start none) EXIT []
      (execute_history (model_env fun _ => true) 1)).1 rfl,
   (router_exact_match (model_env fun _ => true) 1 0 (World.start none) PROC
      [['c', 'p', 'u', 'i', 'n', 'f', 'o']]
      (execute_history (model_env fun _ => true) 1)).2.1 rfl,
   (router_exact_match (model_env fun _ => true) 1 0 (World.start none) HISTORY [['1']]
      (execute_history (model_env fun _ => true) 1)).2.2.1 rfl,
   (router_exact_match (model_env fun _ => true) 1 0 (World.start none) [] []
      (execute_history (model_env fun _ => true) 1)).2.2.2.1 rfl,
   (router_exact_match (model_env fun _ => true) 1 0 (World.start none)
      ['/', 'p', 'r', 'o', 'c', '/', 'f', 'o', 'o'] []
      (execute_history (model_env fun _ => true) 1)).2.2.2.2.1
      (by decide) (by decide) (by decide) (by decide),
   (router_exact_match (model_env fun _ => true) 1 0 (World.start none) EXIT []
      (execute_history (model_env fun _ => true) 1)).2.2.2.2.2.1 rfl,
   (router_exact_match (model_env fun _ => true) 1 0 (World.start none) HISTORY [['1']]
      (execute_history (model_env fun _ => true) 1)).2.2.2.2.2.2.2.1 rfl,
   (router_exact_match (model_env fun _ => true) 1 0 (World.start none)
      ['e', 'x', 'i', 't', '2'] []
      (execute_history (model_env fun _ => true) 1)).2.2.2.2.2.2.2.2.2.1
      (by decide) (by decide) (by decide) (by decide)⟩

/-! ## History miss and exit through replay -/

theorem history_scan_missing (stale : CStr) (lineNum : Int) (ls : List CStr) :
    ∀ index : Int, (lineNum < index ∨ index + ls.length ≤ lineNum) →
    history_scan stale lineNum index ls = Lookup.missing := by
  induction ls with
  | nil => intro index _; rfl
  | cons b rest ih =>
    intro index h
    rcases h with h | h
    · have : ¬ index ≤ lineNum := by omega
      simp [history_scan, this]
    · have h1 : index ≤ lineNum := by simp only [List.length_cons] at h; push_cast at h; omega
      have h2 : index ≠ lineNum := by simp only [List.length_cons] at h; push_cast at h; omega
      have h3 := ih (index + 1) (Or.inr (by
        simp only [List.length_cons] at h; push_cast at h; omega))
      simp [history_scan, h1, h2, h3]

theorem getlines_from_append_newline (c : CStr) : ∀ (cur b : CStr),
    getlines_from cur (c ++ '\n' :: b) = getlines_from cur (c ++ ['\n']) ++ getlines_from [] b := by
  induction c with
  | nil => intro cur b; simp [getlines_from]
  | cons x xs ih =>
    intro cur b
    by_cases hx : x = '\n'
    · simp [getlines_from, hx, ih [] b]
    · simp [getlines_from, hx, ih (cur ++ [x]) b]

/-- Appending a newline-terminated line to a file that is empty or ends with a newline adds
exactly that line to what `getline` returns. -/
theorem getlines_append_line (content l : CStr) (hl : '\n' ∉ l)
    (htext : content = [] ∨ content.getLast? = some '\n') :
    getlines (content ++ (l ++ ['\n'])) = getlines content ++ [l ++ ['\n']] := by
  have hline : getlines_from [] (l ++ ['\n']) = [l ++ ['\n']] := by
    have := getlines_from_line l hl [] []
    simpa [getlines_from] using this
  rcases htext with h | h
  · subst h; simp [getlines, hline, getlines_from]
  · obtain ⟨c, rfl⟩ : ∃ c, content = c ++ ['\n'] := by
      rcases List.eq_nil_or_concat content with h0 | ⟨c, x, rfl⟩
      · subst h0; simp at h
      · refine ⟨c, ?_⟩
        have : x = '\n' := by simpa using h
        rw [this, List.concat_eq_append]
    have := getlines_from_append_newline c [] (l ++ ['\n'])
    simp only [getlines, List.append_assoc, List.singleton_append] at this ⊢
    rw [this, hline]

/-- A numeral in the range of `int` is read by `atoi` as the number it denotes. -/
theorem atoi_of_int_range (t : CStr) (h1 : -2147483648 ≤ numeral_value t)
    (h2 : numeral_value t ≤ 2147483647) : atoi t = numeral_value t := by
  rw [atoi, clamp_long, wrap32]
  omega

/-- C8, as the code has it: for every state of the log and every command `history t` of
exactly two tokens, let `N` be the `int` that `atoi` reads from `t`, which is the number
`t` denotes whenever that number is in the range of `int`.  When the log is absent, or `N`
is below 1, or `N` exceeds the number of lines of the log, one pass of the prompt loop ends
with `returnCode` -1 and the loop still running, records the call of the history handler
and no replay, and leaves the log as it was plus the one line that stores `history t` under
the next line number. -/
theorem history_miss (env : Env) (fuel : Nat) (returnCode : Int) (w : World) (t : CStr)
    (hmiss : w.log = none ∨ atoi t < 1 ∨ ((log_lines w.log).length : Int) < atoi t) :
    prompt_iteration env (fuel + 1) returnCode w [HISTORY, t] =
      some (Outcome.ret (-1)
        { log := some (w.log.getD [] ++
            history_entry (1 + (log_lines w.log).length) [HISTORY, t])
          forks := w.forks
          trace := w.trace ++
            [Event.history_handler [HISTORY, t], Event.history_written [HISTORY, t]] },
        true) ∧
    (-2147483648 ≤ numeral_value t → numeral_value t ≤ 2147483647 →
      atoi t = numeral_value t) := by
  have e1 : HISTORY ≠ EXIT := by decide
  have e2 : HISTORY ≠ PROC := by decide
  have hexec : execute_history env (fuel + 1) w [HISTORY, t] =
      some (Outcome.ret (-1) (w.push (Event.history_handler [HISTORY, t]))) := by
    unfold execute_history
    simp only [World.push]
    cases hlog : w.log with
    | none => rfl
    | some content =>
      have hscan : history_scan (env.stale w) (atoi t) 1 (getlines content) =
          Lookup.missing := by
        apply history_scan_missing
        rcases hmiss with h | h | h
        · rw [hlog] at h; exact absurd h (by simp)
        · exact Or.inl h
        · right; rw [hlog] at h; simp only [log_lines, Option.getD_some] at h; omega
      simp only [hscan]
  have hline := history_line_eq w.log [HISTORY, t] (by simp)
  refine ⟨?_, atoi_of_int_range t⟩
  simp only [prompt_iteration, prompt_dispatch, if_neg e1, if_neg e2, if_true, hexec,
    Option.map_some', write_history, World.push, hline, List.append_assoc,
    List.singleton_append]

theorem history_miss_witness :
    prompt_iteration (model_env fun _ => true) 1 0
        (World.start (some ['1', ' ', 'l', 's', '\n'])) [HISTORY, ['5']] =
      some (Outcome.ret (-1)
        { log := some ['1', ' ', 'l', 's', '\n', '2', ' ', 'h', 'i', 's', 't', 'o', 'r', 'y',
            ' ', '5', '\n']
          forks := 0
          trace := [Event.history_handler [HISTORY, ['5']],
            Event.history_written [HISTORY, ['5']]] }, true) ∧
    atoi ['5'] = numeral_value ['5'] :=
  ⟨(history_miss (model_env fun _ => true) 0 0
      (World.start (some ['1', ' ', 'l', 's', '\n'])) ['5'] (by decide)).1,
   (history_miss (model_env fun _ => true) 0 0
      (World.start (some ['1', ' ', 'l', 's', '\n'])) ['5'] (by decide)).2
      (by decide) (by decide)⟩

/-- C8, as stated, fails: in `history 4294967297` the number is greater than the one line
of the log `1 ls`, yet `atoi` reads it as 1, line 1 is replayed, `ls` is run in a child, the
pass ends with `returnCode` 0 and the log gains `2 history 4294967297`. -/
theorem history_miss_wraps :
    numeral_value ['4', '2', '9', '4', '9', '6', '7', '2', '9', '7'] = 4294967297 ∧
    (log_lines (some ['1', ' ', 'l', 's', '\n'])).length = 1 ∧
    atoi ['4', '2', '9', '4', '9', '6', '7', '2', '9', '7'] = 1 ∧
    get_user_command (model_env fun _ => true)
        ['h', 'i', 's', 't', 'o', 'r', 'y', ' ', '4', '2', '9', '4', '9', '6', '7', '2', '9',
         '7', '\n'] =
      some [HISTORY, ['4', '2', '9', '4', '9', '6', '7', '2', '9', '7']] ∧
    prompt_iteration (model_env fun _ => true) 1 0
        (World.start (some ['1', ' ', 'l', 's', '\n']))
        [HISTORY, ['4', '2', '9', '4', '9', '6', '7', '2', '9', '7']] =
      some (Outcome.ret 0
        { log := some ['1', ' ', 'l', 's', '\n', '2', ' ', 'h', 'i', 's', 't', 'o', 'r', 'y',
            ' ', '4', '2', '9', '4', '9', '6', '7', '2', '9', '7', '\n']
          forks := 1
          trace := [Event.history_handler
              [HISTORY, ['4', '2', '9', '4', '9', '6', '7', '2', '9', '7']],
            Event.replay ['l', 's'], Event.external [['l', 's']], Event.child [['l', 's']],
            Event.waited,
            Event.history_written
              [HISTORY, ['4', '2', '9', '4', '9', '6', '7', '2', '9', '7']]] }, true) := by
  decide

theorem execute_history_replay_exit (env : Env) (fuel : Nat) (w : World) (t content raw : CStr)
    (hlog : w.log = some content)
    (hline : history_scan (env.stale w) (atoi t) 1 (getlines content) = Lookup.found raw)
    (hexit : parse_command env raw = some [EXIT]) :
    execute_history env (fuel + 1) w [HISTORY, t] =
      some (Outcome.exited 0
        { log := some (content ++ history_entry (1 + (getlines content).length) [EXIT])
          forks := w.forks
          trace := w.trace ++ [Event.history_handler [HISTORY, t], Event.replay raw,
            Event.exit_handler [EXIT], Event.history_written [EXIT]] }) := by
  have hl := history_line_eq (some content) [EXIT] (by simp)
  simp only [log_lines, Option.getD_some] at hl
  unfold execute_history
  simp only [World.push, hlog, hline, hexit, replay_dispatch, execute_exit, if_true,
    write_history, Option.getD_some, hl, List.append_assoc, List.singleton_append,
    List.cons_append, List.nil_append]

/-- C3, as the code has it: for every log that is empty or ends with a newline and every
`history t` typed at the prompt such that line `atoi t` of the log exists and the string the
code extracts from it (the text after the first space of the line, followed by the bytes
found after the copy in memory, less one trailing newline) is tokenized to the single token
`exit`, the prompt loop does not return: the process ends by `exit (0)`, whatever input
follows, and `main` ends the same way.  At that point the log is the previous contents
followed by the line `<previous line count + 1> exit`; that line is the last line, the
earlier lines are unchanged and `history t` is not stored. -/
theorem replay_exit_terminates (env : Env) (fuel : Nat) (returnCode argc : Int) (w : World)
    (buffer : CStr) (more : List CStr) (t content raw : CStr)
    (hargc : argc ≤ 1)
    (hcmd : get_user_command env buffer = some [HISTORY, t])
    (hlog : w.log = some content)
    (htext : content = [] ∨ content.getLast? = some '\n')
    (hline : history_scan (env.stale w) (atoi t) 1 (getlines content) = Lookup.found raw)
    (hexit : parse_command env raw = some [EXIT]) :
    ∃ w1 : World,
      user_prompt_loop env (fuel + 1) returnCode w (buffer :: more) =
        some (Outcome.exited 0 w1) ∧
      main env (fuel + 1) argc w (buffer :: more) = some (Outcome.exited 0 w1) ∧
      w1.log = some (content ++
        (utoa (1 + (getlines content).length) ++ [' ', 'e', 'x', 'i', 't', '\n'])) ∧
      w1.trace = w.trace ++ [Event.history_handler [HISTORY, t], Event.replay raw,
        Event.exit_handler [EXIT], Event.history_written [EXIT]] ∧
      log_lines w1.log = log_lines w.log ++
        [utoa (1 + (getlines content).length) ++ [' ', 'e', 'x', 'i', 't', '\n']] := by
  have e1 : HISTORY ≠ EXIT := by decide
  have e2 : HISTORY ≠ PROC := by decide
  have hx := execute_history_replay_exit env fuel w t content raw hlog hline hexit
  have hloop : ∀ rc : Int, user_prompt_loop env (fuel + 1) rc w (buffer :: more) =
      some (Outcome.exited 0
        { log := some (content ++ history_entry (1 + (getlines content).length) [EXIT])
          forks := w.forks
          trace := w.trace ++ [Event.history_handler [HISTORY, t], Event.replay raw,
            Event.exit_handler [EXIT], Event.history_written [EXIT]] }) := by
    intro rc
    simp only [user_prompt_loop, hcmd, prompt_iteration, prompt_dispatch, if_neg e1,
      if_neg e2, if_true, hx, Option.map_some']
  refine ⟨_, hloop returnCode, ?_, ?_, rfl, ?_⟩
  · simp only [main, if_pos hargc, hloop 0]
  · simp [history_entry, List.intercalate, EXIT]
  · have hent : history_entry (1 + (getlines content).length) [EXIT] =
        (utoa (1 + (getlines content).length) ++ [' ', 'e', 'x', 'i', 't']) ++ ['\n'] := by
      simp [history_entry, List.intercalate, EXIT]
    have hno : '\n' ∉ utoa (1 + (getlines content).length) ++ [' ', 'e', 'x', 'i', 't'] := by
      intro hm
      rcases List.mem_append.mp hm with h | h
      · exact (utoa_plain _ _ h).2 rfl
      · revert h; decide
    have := getlines_append_line content _ hno htext
    simp only [log_lines, hlog, Option.getD_some, hent, this]
    simp

theorem replay_exit_terminates_witness :
    ∃ w1 : World,
      user_prompt_loop (model_env fun _ => true) 1 0
          (World.start (some ['1', ' ', 'e', 'x', 'i', 't', '\n']))
          [['h', 'i', 's', 't', 'o', 'r', 'y', ' ', '1', '\n'], ['l', 's', '\n']] =
        some (Outcome.exited 0 w1) ∧
      w1.log = some ['1', ' ', 'e', 'x', 'i', 't', '\n', '2', ' ', 'e', 'x', 'i', 't', '\n'] ∧
      log_lines w1.log =
        [['1', ' ', 'e', 'x', 'i', 't', '\n'], ['2', ' ', 'e', 'x', 'i', 't', '\n']] := by
  obtain ⟨w1, h1, _, h3, _, h5⟩ := replay_exit_terminates (model_env fun _ => true) 0 0 1
    (World.start (some ['1', ' ', 'e', 'x', 'i', 't', '\n']))
    ['h', 'i', 's', 't', 'o', 'r', 'y', ' ', '1', '\n'] [['l', 's', '\n']] ['1']
    ['1', ' ', 'e', 'x', 'i', 't', '\n'] EXIT (by decide) (by decide) rfl (by decide)
    (by decide) (by decide)
  exact ⟨w1, h1, h3, h5⟩

/-- C3, as stated, fails on a log that does not end with a newline: with the log `1 exit`
and `history 1` typed, line 1 exists and stores `exit`, and the process ends by `exit (0)`,
but the appended text joins the unfinished line: the log is then the single line
`1 exit2 exit`, so its last line is not the entry `2 exit` and line 1 is not what it was. -/
theorem replay_exit_joins_unfinished_line :
    history_scan [] (atoi ['1']) 1 (log_lines (some ['1', ' ', 'e', 'x', 'i', 't'])) =
      Lookup.found EXIT ∧
    parse_command (model_env fun _ => true) EXIT = some [EXIT] ∧
    user_prompt_loop (model_env fun _ => true) 1 0
        (World.start (some ['1', ' ', 'e', 'x', 'i', 't']))
        [['h', 'i', 's', 't', 'o', 'r', 'y', ' ', '1', '\n']] =
      some (Outcome.exited 0
        { log := some ['1', ' ', 'e', 'x', 'i', 't', '2', ' ', 'e', 'x', 'i', 't', '\n']
          forks := 0
          trace := [Event.history_handler [HISTORY, ['1']], Event.replay EXIT,
            Event.exit_handler [EXIT], Event.history_written [EXIT]] }) ∧
    log_lines (some ['1', ' ', 'e', 'x', 'i', 't', '2', ' ', 'e', 'x', 'i', 't', '\n']) =
      [['1', ' ', 'e', 'x', 'i', 't', '2', ' ', 'e', 'x', 'i', 't', '\n']] ∧
    log_lines (some ['1', ' ', 'e', 'x', 'i', 't', '2', ' ', 'e', 'x', 'i', 't', '\n']) ≠
      log_lines (some ['1', ' ', 'e', 'x', 'i', 't']) ++
        [['2', ' ', 'e', 'x', 'i', 't', '\n']] := by
  decide

/-- With the byte `x` after the copy made at line 284, the stored line `1 exit` is not
replayed as `exit`: the string extracted is `exit`, newline, `x`, it is one token that equals
no reserved name, it is run as an external command and the prompt loop goes on. -/
theorem replay_exit_with_stale_byte :
    prompt_iteration (stale_env ['x']) 1 0
        (World.start (some ['1', ' ', 'e', 'x', 'i', 't', '\n'])) [HISTORY, ['1']] =
      some (Outcome.ret 0
        { log := some ['1', ' ', 'e', 'x', 'i', 't', '\n', '2', ' ', 'h', 'i', 's', 't', 'o',
            'r', 'y', ' ', '1', '\n']
          forks := 1
          trace := [Event.history_handler [HISTORY, ['1']],
            Event.replay ['e', 'x', 'i', 't', '\n', 'x'],
            Event.external [['e', 'x', 'i', 't', '\n', 'x']],
            Event.child [['e', 'x', 'i', 't', '\n', 'x']], Event.waited,
            Event.history_written [HISTORY, ['1']]] }, true) := by
  decide

/-! ## Spawn failure and the end of the session -/

/-- When `fork` fails, `execute_command` returns -1 without waiting. -/
theorem execute_command_fork_failed (env : Env) (w : World) (args : List CStr)
    (h : env.fork_ok w.forks = false) :
    execute_command env w args =
      Outcome.ret (-1) { log := w.log, forks := w.forks + 1,
                         trace := w.trace ++ [Event.external args, Event.fork_failed] } := by
  simp [execute_command, h]

/-- When `fork` fails under `/proc <name>`, `execute_proc` still returns 0. -/
theorem execute_proc_fork_failed (env : Env) (w : World) (a0 a1 : CStr)
    (h : env.fork_ok w.forks = false) (hfit : fits env 16 (a0 ++ ['/'] ++ a1) = true) :
    execute_proc env w [a0, a1] =
      Outcome.ret 0 { log := w.log, forks := w.forks + 1,
                      trace := w.trace ++ [Event.proc_handler [a0, a1],
                        Event.external ([['c', 'a', 't'], a0 ++ ['/'] ++ a1] ++
                          env.argv_tail (w.push (Event.proc_handler [a0, a1]))),
                        Event.fork_failed] } := by
  have h1 : env.fork_ok (w.push (Event.proc_handler [a0, a1])).forks = false := h
  have h2 := execute_command_fork_failed env (w.push (Event.proc_handler [a0, a1]))
    ([['c', 'a', 't'], a0 ++ ['/'] ++ a1] ++
      env.argv_tail (w.push (Event.proc_handler [a0, a1]))) h1
  have h3 : execute_proc env w [a0, a1] =
      Outcome.ret 0 (execute_command env (w.push (Event.proc_handler [a0, a1]))
        ([['c', 'a', 't'], a0 ++ ['/'] ++ a1] ++
          env.argv_tail (w.push (Event.proc_handler [a0, a1])))).world := by
    simp only [execute_proc, hfit, if_true]
  rw [h3, h2]
  simp [Outcome.world, World.push]

/-- C9 at `/proc cpuinfo` with a `fork` that fails: the pass of the prompt loop ends with
`returnCode` 0, not a negative value, and so does the replay of a stored `/proc cpuinfo`;
no child is waited for and the loop goes on.  The same failure under the external command
`ls` gives -1. -/
theorem proc_spawn_failure_not_negative :
    prompt_iteration (model_env fun _ => false) 1 0 (World.start none)
        [PROC, ['c', 'p', 'u', 'i', 'n', 'f', 'o']] =
      some (Outcome.ret 0
        { log := some ['1', ' ', '/', 'p', 'r', 'o', 'c', ' ', 'c', 'p', 'u', 'i', 'n', 'f',
            'o', '\n']
          forks := 1
          trace := [Event.proc_handler [PROC, ['c', 'p', 'u', 'i', 'n', 'f', 'o']],
            Event.external [['c', 'a', 't'],
              ['/', 'p', 'r', 'o', 'c', '/', 'c', 'p', 'u', 'i', 'n', 'f', 'o']],
            Event.fork_failed,
            Event.history_written [PROC, ['c', 'p', 'u', 'i', 'n', 'f', 'o']]] }, true) ∧
    execute_history (model_env fun _ => false) 1
        (World.start (some ['1', ' ', '/', 'p', 'r', 'o', 'c', ' ', 'c', 'p', 'u', 'i', 'n',
          'f', 'o', '\n'])) [HISTORY, ['1']] =
      some (Outcome.ret 0
        { log := some ['1', ' ', '/', 'p', 'r', 'o', 'c', ' ', 'c', 'p', 'u', 'i', 'n', 'f',
            'o', '\n']
          forks := 1
          trace := [Event.history_handler [HISTORY, ['1']],
            Event.replay ['/', 'p', 'r', 'o', 'c', ' ', 'c', 'p', 'u', 'i', 'n', 'f', 'o'],
            Event.proc_handler [PROC, ['c', 'p', 'u', 'i', 'n', 'f', 'o']],
            Event.external [['c', 'a', 't'],
              ['/', 'p', 'r', 'o', 'c', '/', 'c', 'p', 'u', 'i', 'n', 'f', 'o']],
            Event.fork_failed] }) ∧
    prompt_iteration (model_env fun _ => false) 1 0 (World.start none) [['l', 's']] =
      some (Outcome.ret (-1)
        { log := some ['1', ' ', 'l', 's', '\n']
          forks := 1
          trace := [Event.external [['l', 's']], Event.fork_failed,
            Event.history_written [['l', 's']]] }, true) := by
  decide

/-- C4 on the path through replay: with the log `1 exit` on disk and `history 1` typed,
`main` ends by `exit (0)` with the log still present, now `1 exit` and `2 exit`, and
`delete_history` was not called.  The same end is reached from an absent log by typing
`\\exit` and then `history 1`.  A plain `exit` typed at the prompt and the usage error
both end with the log removed. -/
theorem replay_exit_keeps_log :
    main (model_env fun _ => true) 1 1
        (World.start (some ['1', ' ', 'e', 'x', 'i', 't', '\n']))
        [['h', 'i', 's', 't', 'o', 'r', 'y', ' ', '1', '\n']] =
      some (Outcome.exited 0
        { log := some ['1', ' ', 'e', 'x', 'i', 't', '\n', '2', ' ', 'e', 'x', 'i', 't', '\n']
          forks := 0
          trace := [Event.history_handler [HISTORY, ['1']], Event.replay EXIT,
            Event.exit_handler [EXIT], Event.history_written [EXIT]] }) ∧
    main (model_env fun _ => true) 1 1 (World.start none)
        [['\\', '\\', 'e', 'x', 'i', 't', '\n'],
         ['h', 'i', 's', 't', 'o', 'r', 'y', ' ', '1', '\n']] =
      some (Outcome.exited 0
        { log := some ['1', ' ', '\\', 'e', 'x', 'i', 't', '\n', '2', ' ', 'e', 'x', 'i', 't',
            '\n']
          forks := 1
          trace := [Event.external [['\\', 'e', 'x', 'i', 't']],
            Event.child [['\\', 'e', 'x', 'i', 't']], Event.waited,
            Event.history_written [['\\', 'e', 'x', 'i', 't']],
            Event.history_handler [HISTORY, ['1']], Event.replay ['\\', 'e', 'x', 'i', 't'],
            Event.exit_handler [EXIT], Event.history_written [EXIT]] }) ∧
    main (model_env fun _ => true) 1 1 (World.start none) [['e', 'x', 'i', 't', '\n']] =
      some (Outcome.exited 0
        { log := none
          forks := 0
          trace := [Event.exit_handler [EXIT], Event.history_written [EXIT],
            Event.history_deleted] }) ∧
    main (model_env fun _ => true) 1 2 (World.start (some ['1', ' ', 'l', 's', '\n'])) [] =
      some (Outcome.exited 1
        { log := none, forks := 0, trace := [Event.history_deleted] }) := by
  decide

/-! ## Termination of replay -/

end SimpleShell
